import Mathlib

/-!
Verification of the maze-generation and pursuit core of the maze-game
repository (src/maze.ts, src/game.ts and their rewritten variants).

The TypeScript `Cell[][]` grid is embedded as a total function
`ℤ → ℤ → Cell` together with the `width`/`height` fields of the
`MazeGenerator` class; `initializeCells` establishes the class invariant
that the backing array is exactly a `height × width` rectangle and every
write performed by the generator stays inside that rectangle, so reads
and writes at in-bounds coordinates coincide with the array semantics,
while a read or write at an out-of-bounds coordinate (which in the source
dereferences `undefined` and throws) is modelled by `Option`-valued
operations returning `none`.

`Math.random()`-driven choices are embedded as an explicit stream of
naturals (`Rng`); `Math.floor(Math.random() * n)` becomes `nextNat`,
which can realise every sequence of concrete choices, so universal
statements over `Rng` quantify over all possible runs.  JavaScript
number arithmetic on timers and speeds is modelled with exact rationals.
-/

namespace MazeGame

/-- The four compass directions used for the `walls` record keys
`top` / `right` / `bottom` / `left` of a cell. -/
inductive Dir where
  | top
  | right
  | bottom
  | left
deriving DecidableEq, Repr

/-- The `walls` record of a cell: `true` means the wall is present
(closed), `false` means it has been carved open. -/
structure Walls where
  top : Bool
  right : Bool
  bottom : Bool
  left : Bool
deriving DecidableEq, Repr

/-- A maze cell.  The source `Cell` also stores its own `x`/`y`
coordinates, which `initializeCells` sets to the cell's indices and which
are never mutated nor read by the generator or path finder; in the
function-indexed grid they are the indices themselves, so they are not
repeated here. -/
structure Cell where
  walls : Walls
  visited : Bool
deriving DecidableEq, Repr

/-- The `Position` interface: a plain integer coordinate pair. -/
structure Pos where
  x : ℤ
  y : ℤ
deriving DecidableEq, Repr

/-- The state of a `MazeGenerator`: its `width` and `height` fields and
the `cells` grid. -/
structure MazeState where
  width : ℕ
  height : ℕ
  cells : ℤ → ℤ → Cell

/-- Reading the `walls` record member named by `d`. -/
def wallGet (w : Walls) : Dir → Bool
  | Dir.top => w.top
  | Dir.right => w.right
  | Dir.bottom => w.bottom
  | Dir.left => w.left

/-- Writing the `walls` record member named by `d`. -/
def wallSet (w : Walls) : Dir → Bool → Walls
  | Dir.top, b => { w with top := b }
  | Dir.right, b => { w with right := b }
  | Dir.bottom, b => { w with bottom := b }
  | Dir.left, b => { w with left := b }

/-- `getOppositeDirection`. -/
def opposite : Dir → Dir
  | Dir.top => Dir.bottom
  | Dir.bottom => Dir.top
  | Dir.left => Dir.right
  | Dir.right => Dir.left

/-- The `dx`/`dy` offsets paired with each direction in
`generateMazeRecursive`. -/
def delta : Dir → ℤ × ℤ
  | Dir.top => (0, -1)
  | Dir.right => (1, 0)
  | Dir.bottom => (0, 1)
  | Dir.left => (-1, 0)

/-- Point update of the grid at coordinate `(x, y)`. -/
def updCell (st : MazeState) (x y : ℤ) (f : Cell → Cell) : MazeState :=
  { st with cells := fun a b => if a = x ∧ b = y then f (st.cells a b) else st.cells a b }

/-- `initializeCells`: a fresh `width × height` grid, every wall closed,
every cell unvisited. -/
def initializeCells (w h : ℕ) : MazeState :=
  { width := w, height := h,
    cells := fun _ _ => { walls := ⟨true, true, true, true⟩, visited := false } }

/-- `this.cells[y][x].visited = true`. -/
def markVisited (st : MazeState) (x y : ℤ) : MazeState :=
  updCell st x y (fun c => { c with visited := true })

/-- `this.cells[y][x].walls[d] = b`. -/
def setWall (st : MazeState) (x y : ℤ) (d : Dir) (b : Bool) : MazeState :=
  updCell st x y (fun c => { c with walls := wallSet c.walls d b })

/-- The cell at `(x, y)` is inside the grid rectangle. -/
def inB (st : MazeState) (x y : ℤ) : Prop :=
  0 ≤ x ∧ x < (st.width : ℤ) ∧ 0 ≤ y ∧ y < (st.height : ℤ)

instance (st : MazeState) (x y : ℤ) : Decidable (inB st x y) :=
  inferInstanceAs (Decidable (0 ≤ x ∧ x < (st.width : ℤ) ∧ 0 ≤ y ∧ y < (st.height : ℤ)))

/-- Bounds check for a `Pos`. -/
def inBP (st : MazeState) (p : Pos) : Prop := inB st p.x p.y

instance (st : MazeState) (p : Pos) : Decidable (inBP st p) :=
  inferInstanceAs (Decidable (inB st p.x p.y))

/-- The cell at `(x, y)` is marked visited. -/
def VIS (st : MazeState) (x y : ℤ) : Prop := (st.cells x y).visited = true

instance (st : MazeState) (x y : ℤ) : Decidable (VIS st x y) :=
  inferInstanceAs (Decidable ((st.cells x y).visited = true))

/-- `getCell`: bounds-checked cell lookup, `null` out of bounds. -/
def getCell (st : MazeState) (x y : ℤ) : Option Cell :=
  if inB st x y then some (st.cells x y) else none

/-- The random source: the stream of values drawn from `Math.random()`,
already multiplied and floored, as a list of naturals (head = next draw,
exhausted stream draws 0). -/
abbrev Rng := List ℕ

/-- `Math.floor(Math.random() * n)`: some value in `[0, n)` (`0` when
`n = 0`, as in JavaScript), here realised as the next stream value
mod `n`.  Every sequence of concrete choices is realisable. -/
def nextNat (g : Rng) (n : ℕ) : ℕ × Rng :=
  (if n = 0 then 0 else g.headD 0 % n, g.tail)

/-- `Math.floor(Math.random() * m)` for a factor `m` that may be
negative in JavaScript (as in `width - 2` on a 1-wide grid): for
`0 < m` the floor is any value in `[0, m)`; for `m ≤ 0` the product
ranges over `(m, 0]`, so the floor is any value in `[m, 0]` (the value
`0` arises exactly from the draw `Math.random() = 0`, where
`Math.floor(-0) = 0`).  Realised from the next stream value; every
sequence of concrete choices is realisable. -/
def nextFloorMul (g : Rng) (m : ℤ) : ℤ × Rng :=
  (if 0 < m then ((g.headD 0 % m.toNat : ℕ) : ℤ)
   else -((g.headD 0 % ((-m).toNat + 1) : ℕ) : ℤ), g.tail)

/-- The destructuring swap `[a[i], a[j]] = [a[j], a[i]]`. -/
def swapL {α : Type} (l : List α) (i j : ℕ) : List α :=
  match l.get? i, l.get? j with
  | some a, some b => (l.set i b).set j a
  | _, _ => l

/-- The Fisher–Yates loop of `shuffleArray`, running index `i` from
`len - 1` down to `1`. -/
def shuffleAux {α : Type} : ℕ → List α → Rng → List α × Rng
  | 0, l, g => (l, g)
  | k + 1, l, g =>
      let t := nextNat g (k + 2)
      shuffleAux k (swapL l (k + 1) t.1) t.2

/-- `shuffleArray`. -/
def shuffleArray {α : Type} (l : List α) (g : Rng) : List α × Rng :=
  shuffleAux (l.length - 1) l g

/-- The body of `getValidNeighbors`: open-wall, in-bounds neighbours of
`p` in source order top, right, bottom, left.  (The bounds of `p` itself
are not checked here; this is the raw record access.) -/
def nbrs (st : MazeState) (p : Pos) : List Pos :=
  (if (st.cells p.x p.y).walls.top = false ∧ 0 < p.y then [⟨p.x, p.y - 1⟩] else []) ++
  (if (st.cells p.x p.y).walls.right = false ∧ p.x < (st.width : ℤ) - 1 then
    [⟨p.x + 1, p.y⟩] else []) ++
  (if (st.cells p.x p.y).walls.bottom = false ∧ p.y < (st.height : ℤ) - 1 then
    [⟨p.x, p.y + 1⟩] else []) ++
  (if (st.cells p.x p.y).walls.left = false ∧ 0 < p.x then [⟨p.x - 1, p.y⟩] else [])

/-- `getValidNeighbors`, with the implicit `this.cells[pos.y][pos.x]`
array access made explicit: dereferencing a position outside the grid
throws in the source and is `none` here. -/
def getValidNeighbors (st : MazeState) (p : Pos) : Option (List Pos) :=
  if inBP st p then some (nbrs st p) else none

/-- A queue entry of `findPath`: a discovered position together with the
path recorded for it. -/
structure QEntry where
  pos : Pos
  path : List Pos
deriving DecidableEq, Repr

/-- One neighbour-expansion step of `findPath`: unvisited neighbours are
marked visited and pushed (with their extended paths) at the back of the
queue, in neighbour order. -/
def bfsPush (ent : QEntry) (acc : List QEntry × List Pos) (n : Pos) :
    List QEntry × List Pos :=
  if n ∈ acc.2 then acc else (acc.1 ++ [⟨n, ent.path ++ [n]⟩], acc.2 ++ [n])

/-- The `while (queue.length > 0)` loop of `findPath`.  The loop always
terminates (each iteration pops one entry and entries are only pushed for
never-before-visited cells); the `fuel` argument is an upper bound on the
remaining iterations, and `width * height + 1` is proved sufficient, so
the `0` case is unreachable from `findPath` on an in-bounds start. -/
def bfsLoop (st : MazeState) (t : Pos) :
    ℕ → List QEntry → List Pos → Option (List Pos)
  | 0, _, _ => none
  | _ + 1, [], _ => some []
  | fuel + 1, ent :: rest, vis =>
      if ent.pos = t then some ent.path
      else
        match getValidNeighbors st ent.pos with
        | none => none
        | some ns => (fun acc => bfsLoop st t fuel acc.1 acc.2) (ns.foldl (bfsPush ent) (rest, vis))

/-- `findPath(start, end)`: breadth-first search from `start`, seeded
with the single-entry queue `[(start, [start])]` and visited set
`{start}`. -/
def findPath (st : MazeState) (s t : Pos) : Option (List Pos) :=
  bfsLoop st t (st.width * st.height + 1) [⟨s, [s]⟩] [s]

/-- `countOpenings`. -/
def countOpenings (c : Cell) : ℕ :=
  (if c.walls.top = false then 1 else 0) + (if c.walls.right = false then 1 else 0) +
    (if c.walls.bottom = false then 1 else 0) + (if c.walls.left = false then 1 else 0)

/-- `getNeighborPosition`: the adjacent position one step in direction
`d`, or `null` at the grid boundary. -/
def getNeighborPosition (st : MazeState) (x y : ℤ) : Dir → Option Pos
  | Dir.top => if 0 < y then some ⟨x, y - 1⟩ else none
  | Dir.bottom => if y < (st.height : ℤ) - 1 then some ⟨x, y + 1⟩ else none
  | Dir.left => if 0 < x then some ⟨x - 1, y⟩ else none
  | Dir.right => if x < (st.width : ℤ) - 1 then some ⟨x + 1, y⟩ else none

/-- Opening the matched wall pair between `(x, y)` and its neighbour in
direction `d` (lines 59–60 of maze.ts). -/
def openPair (st : MazeState) (x y : ℤ) (d : Dir) : MazeState :=
  setWall (setWall st x y d false) (x + (delta d).1) (y + (delta d).2) (opposite d) false

/-- The direction list built in `generateMazeRecursive`, in source
order. -/
def carveOrder : List Dir := [Dir.top, Dir.right, Dir.bottom, Dir.left]

/-- `generateMazeRecursive`, with an explicit recursion-depth bound.
Each call marks its (previously unvisited) cell visited, so the depth of
the recursion never exceeds `width * height`; `carve` is run with fuel
`width * height + 1`, which the development proves sufficient. -/
def carve : ℕ → MazeState → Rng → ℤ → ℤ → MazeState × Rng
  | 0, st, g, _, _ => (st, g)
  | fuel + 1, st, g, x, y =>
      let st1 := markVisited st x y
      let sh := shuffleArray carveOrder g
      sh.1.foldl
        (fun acc d =>
          let nx := x + (delta d).1
          let ny := y + (delta d).2
          if inB acc.1 nx ny ∧ (acc.1.cells nx ny).visited = false then
            carve fuel (openPair acc.1 x y d) acc.2 nx ny
          else acc)
        (st1, sh.2)

/-- The body of the direction loop of `generateMazeRecursive` (the
function folded over the shuffled direction list by `carve`). -/
def carveStep (n : ℕ) (x y : ℤ) (acc : MazeState × Rng) (d : Dir) : MazeState × Rng :=
  if inB acc.1 (x + (delta d).1) (y + (delta d).2) ∧
      (acc.1.cells (x + (delta d).1) (y + (delta d).2)).visited = false then
    carve n (openPair acc.1 x y d) acc.2 (x + (delta d).1) (y + (delta d).2)
  else acc

/-- `generateMazeRecursive(x, y)` as invoked on a generator state. -/
def generateMazeRecursive (st : MazeState) (g : Rng) (x y : ℤ) : MazeState × Rng :=
  carve (st.width * st.height + 1) st g x y

/-- One iteration of the `addLoops` loop (part_003 variant): pick a
random cell, flip a coin, and open a right or bottom wall pair if still
closed. -/
def addLoopsIter (st : MazeState) (g : Rng) : MazeState × Rng :=
  let tx := nextNat g (st.width - 1)
  let ty := nextNat tx.2 (st.height - 1)
  let x : ℤ := tx.1
  let y : ℤ := ty.1
  let tc := nextNat ty.2 2
  if tc.1 = 0 then
    if x < (st.width : ℤ) - 1 ∧ (st.cells x y).walls.right = true then
      (setWall (setWall st x y Dir.right false) (x + 1) y Dir.left false, tc.2)
    else (st, tc.2)
  else
    if y < (st.height : ℤ) - 1 ∧ (st.cells x y).walls.bottom = true then
      (setWall (setWall st x y Dir.bottom false) x (y + 1) Dir.top false, tc.2)
    else (st, tc.2)

/-- `addLoops(count)`. -/
def addLoops : MazeState → Rng → ℕ → MazeState × Rng
  | st, g, 0 => (st, g)
  | st, g, n + 1 =>
      let r := addLoopsIter st g
      addLoops r.1 r.2 n

/-- The inner `for (const dir of directions)` loop of `addDeadEnds`:
take the first (shuffled) direction whose wall is closed and whose
neighbour exists and has exactly one opening, open that wall pair, and
`break`. -/
def tryOpenDeadEnd (st : MazeState) (x y : ℤ) : List Dir → MazeState
  | [] => st
  | d :: ds =>
      if wallGet (st.cells x y).walls d = true then
        match getNeighborPosition st x y d with
        | some n =>
            if countOpenings (st.cells n.x n.y) = 1 then
              setWall (setWall st x y d false) n.x n.y (opposite d) false
            else tryOpenDeadEnd st x y ds
        | none => tryOpenDeadEnd st x y ds
      else tryOpenDeadEnd st x y ds

/-- One iteration of `addDeadEnds` in the maze.ts variant, whose
candidate test is `openings === 2`. -/
def addDeadEndsIterA (st : MazeState) (g : Rng) : MazeState × Rng :=
  let tx := nextNat g st.width
  let ty := nextNat tx.2 st.height
  let x : ℤ := tx.1
  let y : ℤ := ty.1
  if countOpenings (st.cells x y) = 2 then
    let sh := shuffleArray carveOrder ty.2
    (tryOpenDeadEnd st x y sh.1, sh.2)
  else (st, ty.2)

/-- `addDeadEnds(count)`, maze.ts variant (`openings === 2`). -/
def addDeadEndsA : MazeState → Rng → ℕ → MazeState × Rng
  | st, g, 0 => (st, g)
  | st, g, n + 1 =>
      let r := addDeadEndsIterA st g
      addDeadEndsA r.1 r.2 n

/-- One iteration of `addDeadEnds` in the part_003 variant, whose
candidate test is `openings >= 2 && openings <= 3`. -/
def addDeadEndsIterB (st : MazeState) (g : Rng) : MazeState × Rng :=
  let tx := nextNat g st.width
  let ty := nextNat tx.2 st.height
  let x : ℤ := tx.1
  let y : ℤ := ty.1
  if 2 ≤ countOpenings (st.cells x y) ∧ countOpenings (st.cells x y) ≤ 3 then
    let sh := shuffleArray carveOrder ty.2
    (tryOpenDeadEnd st x y sh.1, sh.2)
  else (st, ty.2)

/-- `addDeadEnds(count)`, part_003 variant (`2 <= openings <= 3`). -/
def addDeadEndsB : MazeState → Rng → ℕ → MazeState × Rng
  | st, g, 0 => (st, g)
  | st, g, n + 1 =>
      let r := addDeadEndsIterB st g
      addDeadEndsB r.1 r.2 n

/-- `hasAlternativePath`: at least one wall other than `w` is open at
`(x, y)`. -/
def hasAlternativePath (st : MazeState) (x y : ℤ) (w : Dir) : Prop :=
  1 ≤ (if (st.cells x y).walls.top = false ∧ w ≠ Dir.top then 1 else 0) +
      (if (st.cells x y).walls.right = false ∧ w ≠ Dir.right then 1 else 0) +
      (if (st.cells x y).walls.bottom = false ∧ w ≠ Dir.bottom then 1 else 0) +
      (if (st.cells x y).walls.left = false ∧ w ≠ Dir.left then (1 : ℕ) else 0)

instance (st : MazeState) (x y : ℤ) (w : Dir) : Decidable (hasAlternativePath st x y w) :=
  inferInstanceAs (Decidable (1 ≤ _ + _ + _ + _))

/-- `['top','right','bottom','left'][j]`. -/
def dirIndex : ℕ → Dir
  | 0 => Dir.top
  | 1 => Dir.right
  | 2 => Dir.bottom
  | _ => Dir.left

/-- One iteration of `addExtraWalls`: a random cell at
`x = Math.floor(Math.random() * (width - 2)) + 1` (and similarly `y`),
a random wall, closed together with the matching neighbour wall if an
alternative opening remains.  For `width ≥ 3` this picks an interior
column `x ∈ [1, width - 2]`; on a 1-wide grid the factor `width - 2`
is `-1`, so `x` is almost surely `0` (in grid) and the iteration
completes, while the measure-zero draw `Math.random() = 0` gives
`x = 1`, where the source dereferences an `undefined` cell and throws:
`none` here. -/
def addExtraWallsIter (st : MazeState) (g : Rng) : Option (MazeState × Rng) :=
  let tx := nextFloorMul g ((st.width : ℤ) - 2)
  let ty := nextFloorMul tx.2 ((st.height : ℤ) - 2)
  let x : ℤ := tx.1 + 1
  let y : ℤ := ty.1 + 1
  let tw := nextNat ty.2 4
  let d := dirIndex tw.1
  if inB st x y then
    if hasAlternativePath st x y d then
      let st1 := setWall st x y d true
      match getNeighborPosition st1 x y d with
      | some n => some (setWall st1 n.x n.y (opposite d) true, tw.2)
      | none => some (st1, tw.2)
    else some (st, tw.2)
  else none

/-- `addExtraWalls(count)` (maze.ts variant, run for `difficulty > 3`). -/
def addExtraWalls : MazeState → Rng → ℕ → Option (MazeState × Rng)
  | st, g, 0 => some (st, g)
  | st, g, n + 1 =>
      match addExtraWallsIter st g with
      | some r => addExtraWalls r.1 r.2 n
      | none => none

/-- `generate(difficulty)` of the maze.ts variant: carve, add dead ends,
and for `difficulty > 3` add extra walls.  This variant runs no
solvability verification. -/
def generateA (w h difficulty : ℕ) (g : Rng) : Option (MazeState × Rng) :=
  let st0 := initializeCells w h
  let r1 := generateMazeRecursive st0 g 0 0
  let r2 := addDeadEndsA r1.1 r1.2 (min (5 + difficulty * 2) 20)
  if 3 < difficulty then addExtraWalls r2.1 r2.2 (min (difficulty * 3) 40)
  else some r2

/-- The four corner positions used by `ensureSolvable`. -/
def cornersOf (st : MazeState) : List Pos :=
  [⟨0, 0⟩, ⟨(st.width : ℤ) - 1, 0⟩, ⟨0, (st.height : ℤ) - 1⟩,
    ⟨(st.width : ℤ) - 1, (st.height : ℤ) - 1⟩]

/-- The `i < j` double loop order over a list of corners. -/
def cornerPairs : List Pos → List (Pos × Pos)
  | [] => []
  | p :: rest => rest.map (fun q => (p, q)) ++ cornerPairs rest

/-- The pair-checking loop of `ensureSolvable`: on the first corner pair
with an empty path, reinitialise and re-carve (and return); otherwise
leave the maze unchanged. -/
def ensureSolvableGo (st : MazeState) (g : Rng) :
    List (Pos × Pos) → Option (MazeState × Rng)
  | [] => some (st, g)
  | pr :: rest =>
      match findPath st pr.1 pr.2 with
      | none => none
      | some [] => some (generateMazeRecursive (initializeCells st.width st.height) g 0 0)
      | some (_ :: _) => ensureSolvableGo st g rest

/-- `ensureSolvable` (part_003 variant). -/
def ensureSolvable (st : MazeState) (g : Rng) : Option (MazeState × Rng) :=
  ensureSolvableGo st g (cornerPairs (cornersOf st))

/-- `generate(difficulty)` of the part_003 variant: carve, add loops,
add dead ends, then verify solvability between all corner pairs. -/
def generateB (w h difficulty : ℕ) (g : Rng) : Option (MazeState × Rng) :=
  let st0 := initializeCells w h
  let r1 := generateMazeRecursive st0 g 0 0
  let r2 := addLoops r1.1 r1.2 (min (10 + difficulty * 2) 30)
  let r3 := addDeadEndsB r2.1 r2.2 (min (5 + difficulty) 15)
  ensureSolvable r3.1 r3.2

/-! ### The pursuit controller (game.ts, second variant, lines 620–810)

Timer and speed arithmetic (JavaScript numbers) is modelled with exact
rationals. -/

/-- The enemy move interval set by `startLevel` of the second Game
variant (game.ts lines 706–710):
`Math.max(50, Math.round(400 * Math.pow(0.8, level - 1)))`. -/
def enemySpeedAtLevel (level : ℕ) : ℤ :=
  max 50 (round ((400 : ℚ) * (4 / 5 : ℚ) ^ (level - 1)))

/-- The enemy move interval set by `startLevel` of the first Game
variant (game.ts lines 228–229):
`Math.max(50, 200 - (this.state.level - 1) * 20)`. -/
def enemySpeedAtLevelA (level : ℕ) : ℤ :=
  max 50 (200 - ((level : ℤ) - 1) * 20)

/-- The power-up kinds. -/
inductive PUType where
  | speed
  | invincibility
  | reveal
  | freeze
deriving DecidableEq, Repr

/-- A `PowerUp` as picked up by the player. -/
structure PowerUp where
  type : PUType
  position : Pos
  duration : ℚ
  collected : Bool

/-- The game state fields read or written by `updateEnemy`,
`activatePowerUp` and the freeze-expiry callback: the `GameState`
members, the private `enemyMoveTimer` / `enemyPath` / `enemyPathIndex`
fields, and whether a freeze timeout is currently pending
(`this.freezeTimeout !== null`). -/
structure GameSt where
  maze : MazeState
  playerPosition : Pos
  enemyPosition : Pos
  enemyVisualPosition : ℚ × ℚ
  enemyActive : Bool
  gameOver : Bool
  levelComplete : Bool
  activePowerUps : List (PUType × ℚ)
  enemySpeed : ℚ
  enemyMoveTimer : ℚ
  enemyPath : List Pos
  enemyPathIndex : ℕ
  freezeTimeout : Bool

/-- `this.state.activePowerUps.has(t)`. -/
def hasPU (st : GameSt) (t : PUType) : Prop := ∃ e ∈ st.activePowerUps, e.1 = t

instance (st : GameSt) (t : PUType) : Decidable (hasPU st t) :=
  inferInstanceAs (Decidable (∃ e ∈ st.activePowerUps, e.1 = t))

/-- `Map.set` on the active-power-up map. -/
def puSet : List (PUType × ℚ) → PUType → ℚ → List (PUType × ℚ)
  | [], t, v => [(t, v)]
  | e :: rest, t, v => if e.1 = t then (t, v) :: rest else e :: puSet rest t v

/-- `activatePowerUp` (second variant): a freeze deactivates the enemy
and (re)sets the freeze timeout; any other power-up is entered into the
active map with its duration. -/
def activatePowerUp (st : GameSt) (pu : PowerUp) : GameSt :=
  if pu.type = PUType.freeze then
    { st with enemyActive := false, freezeTimeout := true }
  else
    { st with activePowerUps := puSet st.activePowerUps pu.type pu.duration }

/-- The freeze-timeout callback body (game.ts lines 631–636): reactivate
the enemy only if the level has not already ended, and clear the pending
timeout either way. -/
def freezeTimeoutFire (st : GameSt) : GameSt :=
  if st.gameOver = false ∧ st.levelComplete = false then
    { st with enemyActive := true, freezeTimeout := false }
  else
    { st with freezeTimeout := false }

/-- `calculateEnemyPath`. -/
def calculateEnemyPath (st : GameSt) : Option GameSt :=
  if st.enemyActive = false then some st
  else
    match findPath st.maze st.enemyPosition st.playerPosition with
    | none => none
    | some p => some { st with enemyPath := p, enemyPathIndex := 0 }

/-- `gameOver()` as far as the core state is concerned: set the flag and
clear any pending freeze timeout (DOM and audio effects are external). -/
def gameOverStep (st : GameSt) : GameSt :=
  { st with gameOver := true, freezeTimeout := false }

/-- `updateEnemy(deltaTime)` (second variant, game.ts lines 766–810).
Out-of-range array reads (impossible in the states the game reaches) are
modelled as `none`, like the other out-of-bounds dereferences. -/
def updateEnemy (st : GameSt) (deltaTime : ℚ) : Option GameSt :=
  if st.enemyActive = false ∨ hasPU st PUType.freeze then some st
  else
    let st1 := { st with enemyMoveTimer := st.enemyMoveTimer + deltaTime }
    let progress : ℚ := min 1 (st1.enemyMoveTimer / st1.enemySpeed)
    match (if 0 < st1.enemyPathIndex then st1.enemyPath.get? (st1.enemyPathIndex - 1)
           else some st1.enemyPosition) with
    | none => none
    | some prev =>
        let vis : ℚ × ℚ :=
          ((prev.x : ℚ) + ((st1.enemyPosition.x : ℚ) - (prev.x : ℚ)) * progress,
           (prev.y : ℚ) + ((st1.enemyPosition.y : ℚ) - (prev.y : ℚ)) * progress)
        let st2 := { st1 with enemyVisualPosition := vis }
        if st2.enemySpeed ≤ st2.enemyMoveTimer then
          let st3 := { st2 with enemyMoveTimer := 0 }
          (if st3.enemyPathIndex = 0 ∨
              (st3.enemyPath.length : ℤ) - 1 ≤ (st3.enemyPathIndex : ℤ) then
            calculateEnemyPath st3
          else some st3).bind fun st4 =>
            if 1 < st4.enemyPath.length ∧
                (st4.enemyPathIndex : ℤ) < (st4.enemyPath.length : ℤ) - 1 then
              match st4.enemyPath.get? (st4.enemyPathIndex + 1) with
              | none => none
              | some np =>
                  let st5 := { st4 with enemyPathIndex := st4.enemyPathIndex + 1,
                                        enemyPosition := np }
                  if ¬ hasPU st5 PUType.invincibility ∧
                      st5.enemyPosition = st5.playerPosition then
                    some (gameOverStep st5)
                  else some st5
            else some st4
        else some st2

/-! ### Derived specification notions -/

/-- One pathfinding step: `q` is among the valid (open-wall, in-grid)
neighbours of `p`. -/
def Adj (st : MazeState) (p q : Pos) : Prop := q ∈ nbrs st p

instance (st : MazeState) (p q : Pos) : Decidable (Adj st p q) :=
  inferInstanceAs (Decidable (q ∈ nbrs st p))

/-- `l` is a path of the maze from `s` to `e`: non-empty, starting at
`s`, ending at `e`, staying inside the grid, and moving between
grid-adjacent cells through open walls. -/
def PathOk (st : MazeState) (l : List Pos) (s e : Pos) : Prop :=
  l.head? = some s ∧ l.getLast? = some e ∧ List.Chain' (Adj st) l ∧ ∀ p ∈ l, inBP st p

instance (st : MazeState) (l : List Pos) (s e : Pos) : Decidable (PathOk st l s e) :=
  inferInstanceAs
    (Decidable (l.head? = some s ∧ l.getLast? = some e ∧ List.Chain' (Adj st) l ∧
      ∀ p ∈ l, inBP st p))

/-- `e` can be reached from `s` through open walls. -/
def Reachable (st : MazeState) (s e : Pos) : Prop := ∃ l, PathOk st l s e

/-- A simple path: a path visiting no cell twice. -/
def SimplePath (st : MazeState) (l : List Pos) (s e : Pos) : Prop :=
  PathOk st l s e ∧ l.Nodup

instance (st : MazeState) (l : List Pos) (s e : Pos) : Decidable (SimplePath st l s e) :=
  inferInstanceAs (Decidable (PathOk st l s e ∧ l.Nodup))

/-- The wall-symmetry invariant: for every pair of adjacent in-grid
cells, the two wall flags facing each other agree. -/
def WallSym (st : MazeState) : Prop :=
  ∀ x < st.width, ∀ y < st.height,
    (x + 1 < st.width →
      (st.cells (x : ℤ) (y : ℤ)).walls.right = (st.cells ((x : ℤ) + 1) (y : ℤ)).walls.left) ∧
    (y + 1 < st.height →
      (st.cells (x : ℤ) (y : ℤ)).walls.bottom = (st.cells (x : ℤ) ((y : ℤ) + 1)).walls.top)

instance (st : MazeState) : Decidable (WallSym st) :=
  inferInstanceAs (Decidable (∀ x < st.width, ∀ y < st.height, _ ∧ _))

/-- The number of in-grid cells not yet marked visited (the recursion
measure of the carving pass). -/
def unvisCount (st : MazeState) : ℕ :=
  ((Finset.range st.width ×ˢ Finset.range st.height).filter
    (fun q => ¬ VIS st (q.1 : ℤ) (q.2 : ℤ))).card

/-- Pointwise wall comparison: every wall open in `s` is open in `t`
(`s ⟶ t` only carves, never builds). -/
def WallsLe (s t : MazeState) : Prop :=
  ∀ x y : ℤ, ∀ d : Dir, wallGet (s.cells x y).walls d = false →
    wallGet (t.cells x y).walls d = false

/-- The finite set of in-grid positions. -/
def gridFinset (st : MazeState) : Finset Pos :=
  (Finset.range st.width ×ˢ Finset.range st.height).image (fun c => ⟨(c.1 : ℤ), (c.2 : ℤ)⟩)

/-- In-grid positions not yet in the visited list `V` (the termination
measure of the `findPath` loop, together with the queue length). -/
def remCount (st : MazeState) (V : List Pos) : ℕ :=
  ((gridFinset st).filter (fun p => p ∉ V)).card

/-- The loop invariant of `findPath`, for source `s`: the queue `Q` and
visited list `V` satisfy the breadth-first-search properties relating
recorded paths, shortest distances and the discovery frontier. -/
structure BfsInv (st : MazeState) (s : Pos) (Q : List QEntry) (V : List Pos) : Prop where
  entPath : ∀ ent ∈ Q, PathOk st ent.path s ent.pos
  entVis : ∀ ent ∈ Q, ent.pos ∈ V
  visNodup : V.Nodup
  visInB : ∀ v ∈ V, inBP st v
  visReach : ∀ v ∈ V, Reachable st s v
  sorted : Q.Pairwise (fun a b => a.path.length ≤ b.path.length)
  twoLevel : ∀ a ∈ Q, ∀ b ∈ Q, b.path.length ≤ a.path.length + 1
  entMin : ∀ ent ∈ Q, ∀ q, PathOk st q s ent.pos → ent.path.length ≤ q.length
  expanded : ∀ u ∈ V, (∀ ent ∈ Q, ent.pos ≠ u) → ∀ n, Adj st u n → n ∈ V
  disc : ∀ v q, PathOk st q s v → (∀ ent ∈ Q, q.length ≤ ent.path.length) → v ∈ V

/-- `t` has the same dimensions as `s` and every wall open in `s` is
still open in `t` (a generation step that only carves). -/
def StepLe (s t : MazeState) : Prop :=
  t.width = s.width ∧ t.height = s.height ∧ WallsLe s t

/-- All four walls of the cell at `(x, y)` are closed. -/
def allClosed (st : MazeState) (x y : ℤ) : Prop :=
  (st.cells x y).walls = ⟨true, true, true, true⟩

/-- Precondition of a call `generateMazeRecursive(x, y)` on the grown
state `st`: walls are symmetric, the target cell is an in-grid
unvisited cell, every other in-grid unvisited cell is still fully
walled, visited cells are in-grid, and between any two cells of
`visited ∪ {target}` there is exactly one simple path (the target was
just connected to the visited region by its caller, or is the isolated
root). -/
structure CarveEntry (st : MazeState) (x y : ℤ) : Prop where
  sym : WallSym st
  hin : inB st x y
  hun : ¬ VIS st x y
  closedEx : ∀ a b : ℤ, inB st a b → ¬ VIS st a b → ¬ (a = x ∧ b = y) → allClosed st a b
  visin : ∀ a b : ℤ, VIS st a b → inB st a b
  upx : ∀ a b : Pos, (VIS st a.x a.y ∨ a = ⟨x, y⟩) → (VIS st b.x b.y ∨ b = ⟨x, y⟩) →
    ∃! l, SimplePath st l a b

/-- Postcondition of a call `generateMazeRecursive(x, y)` taking `st`
to `st2`: dimensions unchanged, visited cells only grow and now include
the target, the `CarveEntry` invariants hold unconditionally, and every
newly visited cell (and the target) has all its in-grid neighbours
visited. -/
structure CarvePost (st st2 : MazeState) (x y : ℤ) : Prop where
  wEq : st2.width = st.width
  hEq : st2.height = st.height
  mono : ∀ a b : ℤ, VIS st a b → VIS st2 a b
  target : VIS st2 x y
  sym : WallSym st2
  closed : ∀ a b : ℤ, inB st2 a b → ¬ VIS st2 a b → allClosed st2 a b
  visin : ∀ a b : ℤ, VIS st2 a b → inB st2 a b
  up : ∀ a b : Pos, VIS st2 a.x a.y → VIS st2 b.x b.y → ∃! l, SimplePath st2 l a b
  nbVis : ∀ a b : ℤ, ((VIS st2 a b ∧ ¬ VIS st a b) ∨ (a = x ∧ b = y)) →
    ∀ d : Dir, inB st2 (a + (delta d).1) (b + (delta d).2) →
      VIS st2 (a + (delta d).1) (b + (delta d).2)

/-- Invariant of the direction loop inside `generateMazeRecursive`,
relating the state `stem` right after the current cell was marked
visited to the running state `cur`. -/
structure CarveMid (stem cur : MazeState) : Prop where
  wEq : cur.width = stem.width
  hEq : cur.height = stem.height
  mono : ∀ a b : ℤ, VIS stem a b → VIS cur a b
  sym : WallSym cur
  closed : ∀ a b : ℤ, inB cur a b → ¬ VIS cur a b → allClosed cur a b
  visin : ∀ a b : ℤ, VIS cur a b → inB cur a b
  up : ∀ a b : Pos, VIS cur a.x a.y → VIS cur b.x b.y → ∃! l, SimplePath cur l a b
  nbVis : ∀ a b : ℤ, VIS cur a b → ¬ VIS stem a b →
    ∀ d : Dir, inB cur (a + (delta d).1) (b + (delta d).2) →
      VIS cur (a + (delta d).1) (b + (delta d).2)

/-- Executable check that consecutive entries of `l` are `nbrs`-steps
(used to evaluate concrete path witnesses). -/
def chainAdjB (st : MazeState) : List Pos → Bool
  | [] => true
  | [_] => true
  | a :: b :: rest => decide (b ∈ nbrs st a) && chainAdjB st (b :: rest)

/-! ### Concrete fixtures used by witnesses and counterexamples -/

/-- A carved 3×3 maze (all random draws 0). -/
def mCarved3 : MazeState := (generateMazeRecursive (initializeCells 3 3) [] 0 0).1

/-- A result of one `addExtraWalls` iteration on the carved 3×3 maze. -/
def aewRes : MazeState × Rng := (addExtraWalls mCarved3 [0, 0, 1] 1).getD (initializeCells 0 0, [])

/-- A 2×2 grid with every wall closed. -/
def mClosed : MazeState := initializeCells 2 2

/-- A carved 2×2 maze (all random draws 0). -/
def mCarved : MazeState := (generateMazeRecursive (initializeCells 2 2) [] 0 0).1

/-- A random stream for `generateA 3 3 4`: identity shuffles during
carving, dead-end picks at the (single-opening) corner cell so that pass
is a no-op, then one extra-wall iteration closing the left wall of the
centre cell followed by no-op iterations re-closing its top wall. -/
def rngCE : Rng :=
  (List.replicate 9 [3, 2, 1]).flatten ++ (List.replicate 13 [0, 0]).flatten ++
    [0, 0, 3] ++ (List.replicate 11 [0, 0, 0]).flatten

/-- The maze produced by `generateA 3 3 4 rngCE`. -/
def stCE : MazeState × Rng := (generateA 3 3 4 rngCE).getD (initializeCells 0 0, [])

/-- A game state used to instantiate the pursuit-controller theorems. -/
def egGame : GameSt :=
  { maze := initializeCells 2 2, playerPosition := ⟨0, 0⟩, enemyPosition := ⟨1, 1⟩,
    enemyVisualPosition := (1, 1), enemyActive := true, gameOver := false,
    levelComplete := false, activePowerUps := [], enemySpeed := 400,
    enemyMoveTimer := 15, enemyPath := [⟨1, 1⟩, ⟨1, 0⟩, ⟨0, 0⟩], enemyPathIndex := 1,
    freezeTimeout := false }

/-- A freeze power-up. -/
def egFreeze : PowerUp :=
  { type := PUType.freeze, position := ⟨1, 1⟩, duration := 5000, collected := true }

/-! ### Theorems -/

/-- C7: for every maze and every in-bounds position `a`,
`findPath(a, a)` returns the single-element sequence `[a]`. -/
theorem findPath_self (st : MazeState) (a : Pos) (h : inBP st a) :
    findPath st a a = some [a] := by
  simp [findPath, bfsLoop]

theorem findPath_self_witness :
    inBP mClosed ⟨1, 0⟩ ∧ findPath mClosed ⟨1, 0⟩ ⟨1, 0⟩ = some [⟨1, 0⟩] :=
  ⟨by decide, findPath_self mClosed ⟨1, 0⟩ (by decide)⟩

theorem round_rat_mono {a b : ℚ} (h : a ≤ b) : round a ≤ round b := by
  rw [round_eq, round_eq]
  exact Int.floor_le_floor (by linarith)

/-- C8 (amended, the second Game variant of `startLevel`, game.ts
lines 706–710): for every level `L ≥ 1` the enemy move interval
computed at level start equals `max(50, round(400 · 0.8^(L-1)))`
milliseconds (modelling JavaScript number arithmetic by exact
rationals); it is `400`ms at level 1, never below the `50`ms floor,
and non-increasing in the level.  The first Game variant uses the
different formula `max(50, 200 - 20·(L-1))` (see the counterexample
refuting the original claim for that variant). -/
theorem enemySpeed_policy (L : ℕ) (hL : 1 ≤ L) :
    enemySpeedAtLevel L = max 50 (round ((400 : ℚ) * (4 / 5 : ℚ) ^ (L - 1))) ∧
    enemySpeedAtLevel 1 = 400 ∧
    50 ≤ enemySpeedAtLevel L ∧
    ∀ M : ℕ, L ≤ M → enemySpeedAtLevel M ≤ enemySpeedAtLevel L := by
  refine ⟨rfl, by norm_num [enemySpeedAtLevel], le_max_left _ _, ?_⟩
  intro M hM
  unfold enemySpeedAtLevel
  refine max_le_max le_rfl (round_rat_mono ?_)
  refine mul_le_mul_of_nonneg_left ?_ (by norm_num)
  exact pow_le_pow_of_le_one (by norm_num) (by norm_num) (Nat.sub_le_sub_right hM 1)

theorem enemySpeed_policy_witness :
    (1 : ℕ) ≤ 3 ∧
    (enemySpeedAtLevel 3 = max 50 (round ((400 : ℚ) * (4 / 5 : ℚ) ^ (3 - 1))) ∧
      enemySpeedAtLevel 1 = 400 ∧
      50 ≤ enemySpeedAtLevel 3 ∧
      ∀ M : ℕ, 3 ≤ M → enemySpeedAtLevel M ≤ enemySpeedAtLevel 3) :=
  ⟨by decide, enemySpeed_policy 3 (by decide)⟩

/-- C8 is refuted for the first Game variant of `startLevel` (game.ts
lines 228–229): it computes `Math.max(50, 200 - (level - 1) * 20)`, a
`200`ms baseline with a linear `20`ms-per-level decrease, so its move
interval at level 1 is `200`ms, not the claimed
`max(50, round(400 · 0.8^(L-1))) = 400`ms. -/
theorem enemySpeedA_counterexample :
    enemySpeedAtLevelA 1 = 200 ∧ enemySpeedAtLevel 1 = 400 ∧
    enemySpeedAtLevelA 1 ≠ enemySpeedAtLevel 1 := by
  have h1 : enemySpeedAtLevelA 1 = 200 := by decide
  have h2 : enemySpeedAtLevel 1 = 400 := by norm_num [enemySpeedAtLevel]
  refine ⟨h1, h2, ?_⟩
  rw [h1, h2]
  decide

/-- C9: while a freeze is in effect (the freeze power-up has set
`enemyActive := false`), `updateEnemy` leaves the whole state — in
particular the move timer, path, path index and grid position —
unchanged, and the freeze-expiry callback reactivates the enemy with the
same path and index exactly when neither `gameOver` nor `levelComplete`
is set. -/
theorem freeze_semantics :
    (∀ (st : GameSt) (dt : ℚ), st.enemyActive = false → updateEnemy st dt = some st) ∧
    (∀ (st : GameSt) (pu : PowerUp) (dt : ℚ), pu.type = PUType.freeze →
      updateEnemy (activatePowerUp st pu) dt = some (activatePowerUp st pu)) ∧
    (∀ st : GameSt, st.gameOver = false → st.levelComplete = false →
      freezeTimeoutFire st = { st with enemyActive := true, freezeTimeout := false }) ∧
    (∀ st : GameSt, st.gameOver = true ∨ st.levelComplete = true →
      (freezeTimeoutFire st).enemyActive = st.enemyActive ∧
      (freezeTimeoutFire st).enemyPath = st.enemyPath ∧
      (freezeTimeoutFire st).enemyPathIndex = st.enemyPathIndex ∧
      (freezeTimeoutFire st).enemyPosition = st.enemyPosition) := by
  have h1 : ∀ (st : GameSt) (dt : ℚ), st.enemyActive = false →
      updateEnemy st dt = some st := by
    intro st dt h
    unfold updateEnemy
    rw [if_pos (Or.inl h)]
  refine ⟨h1, ?_, ?_, ?_⟩
  · intro st pu dt hpu
    apply h1
    unfold activatePowerUp
    rw [if_pos hpu]
  · intro st hg hl
    unfold freezeTimeoutFire
    rw [if_pos ⟨hg, hl⟩]
  · intro st h
    have hcond : ¬ (st.gameOver = false ∧ st.levelComplete = false) := by
      rcases h with h | h <;> simp [h]
    unfold freezeTimeoutFire
    rw [if_neg hcond]
    exact ⟨rfl, rfl, rfl, rfl⟩

theorem freeze_semantics_witness :
    egFreeze.type = PUType.freeze ∧
    updateEnemy (activatePowerUp egGame egFreeze) 16 = some (activatePowerUp egGame egFreeze) :=
  ⟨by rfl, freeze_semantics.2.1 egGame egFreeze 16 (by rfl)⟩

/-! #### Paths: basic toolkit -/

theorem nbrs_inB {st : MazeState} {p q : Pos} (hp : inBP st p) (hq : q ∈ nbrs st p) :
    inBP st q := by
  have hp2 : 0 ≤ p.x ∧ p.x < (st.width : ℤ) ∧ 0 ≤ p.y ∧ p.y < (st.height : ℤ) := hp
  unfold nbrs at hq
  simp only [List.mem_append, List.mem_ite_nil_right, List.mem_singleton] at hq
  unfold inBP inB
  rcases hq with ((⟨hc, rfl⟩ | ⟨hc, rfl⟩) | ⟨hc, rfl⟩) | ⟨hc, rfl⟩ <;> simp <;> omega

theorem pathOk_ne_nil {st : MazeState} {l : List Pos} {s e : Pos}
    (h : PathOk st l s e) : l ≠ [] := by
  intro hl
  rw [hl] at h
  simp [PathOk] at h

theorem pathOk_length_pos {st : MazeState} {l : List Pos} {s e : Pos}
    (h : PathOk st l s e) : 1 ≤ l.length := by
  cases l with
  | nil => exact absurd rfl (pathOk_ne_nil h)
  | cons a t => simp

theorem pathOk_single {st : MazeState} {a : Pos} (h : inBP st a) : PathOk st [a] a a := by
  exact ⟨rfl, rfl, by simp, by simpa using h⟩

theorem pathOk_start_inB {st : MazeState} {l : List Pos} {s e : Pos}
    (h : PathOk st l s e) : inBP st s := by
  rcases h with ⟨h1, -, -, h4⟩
  exact h4 s (List.mem_of_mem_head? h1)

theorem pathOk_end_inB {st : MazeState} {l : List Pos} {s e : Pos}
    (h : PathOk st l s e) : inBP st e := by
  rcases h with ⟨-, h2, -, h4⟩
  exact h4 e (List.mem_of_mem_getLast? h2)

theorem pathOk_length_one {st : MazeState} {l : List Pos} {s e : Pos}
    (h : PathOk st l s e) (hl : l.length = 1) : e = s ∧ l = [s] := by
  rcases List.length_eq_one.mp hl with ⟨a, rfl⟩
  rcases h with ⟨h1, h2, -, -⟩
  simp only [List.head?_cons, Option.some.injEq] at h1
  simp only [List.getLast?_singleton, Option.some.injEq] at h2
  subst h1; subst h2
  exact ⟨rfl, rfl⟩

theorem pathOk_snoc {st : MazeState} {l : List Pos} {s e n : Pos}
    (h : PathOk st l s e) (ha : Adj st e n) (hn : inBP st n) :
    PathOk st (l ++ [n]) s n := by
  rcases h with ⟨h1, h2, h3, h4⟩
  refine ⟨?_, ?_, ?_, ?_⟩
  · rw [List.head?_append_of_ne_nil _ (pathOk_ne_nil ⟨h1, h2, h3, h4⟩)]
    exact h1
  · exact List.getLast?_concat l
  · rw [List.chain'_append]
    refine ⟨h3, by simp, ?_⟩
    intro x hx y hy
    rw [h2] at hx
    simp only [Option.mem_def, Option.some.injEq] at hx
    simp only [List.head?_cons, Option.mem_def, Option.some.injEq] at hy
    subst hx; subst hy
    exact ha
  · intro p hp
    rcases List.mem_append.mp hp with hp | hp
    · exact h4 p hp
    · rw [List.mem_singleton.mp hp]
      exact hn

theorem pathOk_dropLast {st : MazeState} {l : List Pos} {s e : Pos}
    (h : PathOk st l s e) (h2 : 2 ≤ l.length) :
    ∃ q, ∃ p : Pos, l = q ++ [e] ∧ PathOk st q s p ∧ Adj st p e ∧ q.length + 1 = l.length := by
  rcases h with ⟨hh, hl, hc, hm⟩
  have hdecomp : l.dropLast ++ [e] = l := List.dropLast_append_getLast? e hl
  have hdne : l.dropLast ≠ [] := by
    have : l.dropLast.length = l.length - 1 := List.length_dropLast l
    intro hnil
    rw [hnil] at this
    simp at this
    omega
  obtain ⟨p, hp⟩ : ∃ p, l.dropLast.getLast? = some p := by
    cases hgl : l.dropLast.getLast? with
    | none => exact absurd (List.getLast?_eq_none.mp hgl) hdne
    | some p => exact ⟨p, rfl⟩
  refine ⟨l.dropLast, p, hdecomp.symm, ⟨?_, hp, ?_, ?_⟩, ?_, ?_⟩
  · rw [← hdecomp, List.head?_append_of_ne_nil _ hdne] at hh
    exact hh
  · rw [← hdecomp, List.chain'_append] at hc
    exact hc.1
  · intro q hq
    exact hm q (by rw [← hdecomp]; exact List.mem_append_left _ hq)
  · rw [← hdecomp, List.chain'_append] at hc
    exact hc.2.2 p hp e (by simp)
  · have := List.length_dropLast l
    omega

theorem pathOk_closed {st : MazeState} {V : List Pos}
    (hcl : ∀ u ∈ V, ∀ n, Adj st u n → n ∈ V) :
    ∀ (q : List Pos) (s v : Pos), s ∈ V → PathOk st q s v → v ∈ V := by
  intro q
  induction q with
  | nil => intro s v _ h; exact absurd rfl (pathOk_ne_nil h)
  | cons a t ih =>
      intro s v hs h
      rcases h with ⟨h1, h2, h3, h4⟩
      simp only [List.head?_cons, Option.some.injEq] at h1
      subst h1
      cases t with
      | nil =>
          simp only [List.getLast?_singleton, Option.some.injEq] at h2
          subst h2; exact hs
      | cons b t2 =>
          rw [List.chain'_cons] at h3
          refine ih b v (hcl a hs b h3.1) ⟨rfl, ?_, h3.2, ?_⟩
          · rw [← h2, List.getLast?_cons_cons]
          · intro p hp
            exact h4 p (List.mem_cons_of_mem a hp)

/-! #### Counting in-grid positions (termination measure of the loop) -/

theorem mem_gridFinset {st : MazeState} {p : Pos} : p ∈ gridFinset st ↔ inBP st p := by
  unfold gridFinset
  simp only [Finset.mem_image, Finset.mem_product, Finset.mem_range, Prod.exists]
  constructor
  · rintro ⟨a, b, ⟨ha, hb⟩, rfl⟩
    show inB st a b
    unfold inB
    omega
  · intro hp
    obtain ⟨px, py⟩ := p
    have hp2 : 0 ≤ px ∧ px < (st.width : ℤ) ∧ 0 ≤ py ∧ py < (st.height : ℤ) := hp
    refine ⟨px.toNat, py.toNat, ⟨by omega, by omega⟩, ?_⟩
    simp only [Pos.mk.injEq]
    omega

theorem gridFinset_card (st : MazeState) : (gridFinset st).card = st.width * st.height := by
  unfold gridFinset
  rw [Finset.card_image_of_injective _ (fun a b hab => ?_), Finset.card_product,
    Finset.card_range, Finset.card_range]
  simp only [Pos.mk.injEq] at hab
  have h1 : (a.1 : ℤ) = b.1 := hab.1
  have h2 : (a.2 : ℤ) = b.2 := hab.2
  have := @Nat.cast_injective ℤ _ _
  exact Prod.ext (by exact_mod_cast h1) (by exact_mod_cast h2)

theorem remCount_snoc {st : MazeState} {V : List Pos} {n : Pos} (hg : inBP st n)
    (hv : n ∉ V) : remCount st (V ++ [n]) + 1 = remCount st V := by
  unfold remCount
  have hset : (gridFinset st).filter (fun p => p ∉ V ++ [n]) =
      ((gridFinset st).filter (fun p => p ∉ V)).erase n := by
    ext p
    simp only [Finset.mem_filter, Finset.mem_erase, List.mem_append, List.mem_singleton]
    constructor
    · rintro ⟨hpg, hpv⟩
      push_neg at hpv
      exact ⟨hpv.2, hpg, hpv.1⟩
    · rintro ⟨hpn, hpg, hpv⟩
      refine ⟨hpg, ?_⟩
      push_neg
      exact ⟨hpv, hpn⟩
  rw [hset]
  exact Finset.card_erase_add_one (Finset.mem_filter.mpr ⟨mem_gridFinset.mpr hg, hv⟩)

theorem remCount_append {st : MazeState} :
    ∀ {new : List Pos} {V : List Pos}, new.Nodup → (∀ n ∈ new, inBP st n) →
      (∀ n ∈ new, n ∉ V) → remCount st (V ++ new) + new.length = remCount st V := by
  intro new
  induction new with
  | nil => intro V _ _ _; simp
  | cons n rest ih =>
      intro V hnd hg hv
      rcases List.nodup_cons.mp hnd with ⟨hn, hnd2⟩
      have step := @remCount_snoc st V n
        (hg n (List.mem_cons_self n rest)) (hv n (List.mem_cons_self n rest))
      have tail := ih (V := V ++ [n]) hnd2
        (fun m hm => hg m (List.mem_cons_of_mem n hm))
        (fun m hm => by
          intro hmem
          rcases List.mem_append.mp hmem with h | h
          · exact hv m (List.mem_cons_of_mem n hm) h
          · rw [List.mem_singleton.mp h] at hm
            exact hn hm)
      have hre : V ++ n :: rest = (V ++ [n]) ++ rest := by simp
      rw [hre]
      simp only [List.length_cons] at *
      omega

/-! #### The breadth-first-search loop of `findPath` -/

theorem foldPush_spec (ent : QEntry) :
    ∀ (ns : List Pos) (Q0 : List QEntry) (V0 : List Pos),
    ∃ new : List Pos,
      (ns.foldl (bfsPush ent) (Q0, V0)).1 =
          Q0 ++ new.map (fun n => ⟨n, ent.path ++ [n]⟩) ∧
      (ns.foldl (bfsPush ent) (Q0, V0)).2 = V0 ++ new ∧
      new.Nodup ∧ (∀ n ∈ new, n ∈ ns ∧ n ∉ V0) ∧ (∀ n ∈ ns, n ∈ V0 ++ new) := by
  intro ns
  induction ns with
  | nil => intro Q0 V0; exact ⟨[], by simp, by simp, by simp, by simp, by simp⟩
  | cons n ns ih =>
      intro Q0 V0
      by_cases hn : n ∈ V0
      · obtain ⟨new, hQ, hV, hnd, hsub, hall⟩ := ih Q0 V0
        refine ⟨new, ?_, ?_, hnd, ?_, ?_⟩
        · rw [List.foldl_cons, bfsPush, if_pos hn]
          exact hQ
        · rw [List.foldl_cons, bfsPush, if_pos hn]
          exact hV
        · intro m hm
          exact ⟨List.mem_cons_of_mem n (hsub m hm).1, (hsub m hm).2⟩
        · intro m hm
          rcases List.mem_cons.mp hm with rfl | hm
          · exact List.mem_append_left _ hn
          · exact hall m hm
      · obtain ⟨new, hQ, hV, hnd, hsub, hall⟩ := ih (Q0 ++ [⟨n, ent.path ++ [n]⟩]) (V0 ++ [n])
        refine ⟨n :: new, ?_, ?_, ?_, ?_, ?_⟩
        · rw [List.foldl_cons, bfsPush, if_neg hn]
          rw [hQ, List.append_assoc]
          rfl
        · rw [List.foldl_cons, bfsPush, if_neg hn]
          rw [hV, List.append_assoc]
          rfl
        · refine List.nodup_cons.mpr ⟨?_, hnd⟩
          intro hmem
          exact (hsub n hmem).2 (List.mem_append_right _ (List.mem_singleton.mpr rfl))
        · intro m hm
          rcases List.mem_cons.mp hm with rfl | hm
          · exact ⟨List.mem_cons_self m ns, hn⟩
          · refine ⟨List.mem_cons_of_mem n (hsub m hm).1, ?_⟩
            intro hmV0
            exact (hsub m hm).2 (List.mem_append_left _ hmV0)
        · intro m hm
          rcases List.mem_cons.mp hm with rfl | hm
          · simp
          · have := hall m hm
            simp only [List.mem_append, List.mem_singleton, List.mem_cons] at this ⊢
            tauto

theorem bfsLoop_spec (st : MazeState) (s t : Pos) (hs : inBP st s) :
    ∀ (fuel : ℕ) (Q : List QEntry) (V : List Pos),
      BfsInv st s Q V →
      (t ∈ V → ∃ ent ∈ Q, ent.pos = t) →
      remCount st V + Q.length < fuel →
      ∃ res, bfsLoop st t fuel Q V = some res ∧
        ((¬ Reachable st s t ∧ res = []) ∨
          (PathOk st res s t ∧ ∀ q, PathOk st q s t → res.length ≤ q.length)) := by
  intro fuel
  induction fuel with
  | zero => intro Q V _ _ hm; omega
  | succ n ih =>
      intro Q V inv htr hm
      cases Q with
      | nil =>
          refine ⟨[], rfl, Or.inl ⟨?_, rfl⟩⟩
          rintro ⟨q, hq⟩
          obtain ⟨ent, hent, -⟩ :=
            htr (inv.disc t q hq (fun ent h => absurd h (List.not_mem_nil ent)))
          exact absurd hent (List.not_mem_nil ent)
      | cons ent rest =>
          by_cases hpt : ent.pos = t
          · refine ⟨ent.path, ?_, Or.inr ⟨?_, ?_⟩⟩
            · simp only [bfsLoop]
              rw [if_pos hpt]
            · have h := inv.entPath ent (List.mem_cons_self _ _)
              rwa [hpt] at h
            · intro q hq
              exact inv.entMin ent (List.mem_cons_self _ _) q (by rw [hpt]; exact hq)
          · have hiB : inBP st ent.pos :=
              inv.visInB ent.pos (inv.entVis ent (List.mem_cons_self _ _))
            have hP : PathOk st ent.path s ent.pos := inv.entPath ent (List.mem_cons_self _ _)
            have hL1 : 1 ≤ ent.path.length := pathOk_length_pos hP
            obtain ⟨new, hQ1, hV1, hnd, hsub, hall⟩ := foldPush_spec ent (nbrs st ent.pos) rest V
            have hheadLe : ∀ b ∈ rest, ent.path.length ≤ b.path.length :=
              (List.pairwise_cons.mp inv.sorted).1
            have hrestSorted := (List.pairwise_cons.mp inv.sorted).2
            have hUB : ∀ b ∈ ent :: rest, b.path.length ≤ ent.path.length + 1 :=
              fun b hb => inv.twoLevel ent (List.mem_cons_self _ _) b hb
            have hnewAdj : ∀ m ∈ new, Adj st ent.pos m := fun m hm => (hsub m hm).1
            have hnewInB : ∀ m ∈ new, inBP st m := fun m hm => nbrs_inB hiB (hnewAdj m hm)
            have hnewPath : ∀ m ∈ new, PathOk st (ent.path ++ [m]) s m :=
              fun m hm => pathOk_snoc hP (hnewAdj m hm) (hnewInB m hm)
            have hQ1lb : ∀ b ∈ rest ++ new.map (fun m => (⟨m, ent.path ++ [m]⟩ : QEntry)),
                ent.path.length ≤ b.path.length := by
              intro b hb
              rcases List.mem_append.mp hb with hb | hb
              · exact hheadLe b hb
              · obtain ⟨m, hm, rfl⟩ := List.mem_map.mp hb
                simp only [List.length_append, List.length_singleton]
                omega
            have hQ1ub : ∀ b ∈ rest ++ new.map (fun m => (⟨m, ent.path ++ [m]⟩ : QEntry)),
                b.path.length ≤ ent.path.length + 1 := by
              intro b hb
              rcases List.mem_append.mp hb with hb | hb
              · exact hUB b (List.mem_cons_of_mem ent hb)
              · obtain ⟨m, hm, rfl⟩ := List.mem_map.mp hb
                simp [List.length_append]
            have hMin1 : ∀ b ∈ rest ++ new.map (fun m => (⟨m, ent.path ++ [m]⟩ : QEntry)),
                ∀ q, PathOk st q s b.pos → b.path.length ≤ q.length := by
              intro b hb q hq
              rcases List.mem_append.mp hb with hb | hb
              · exact inv.entMin b (List.mem_cons_of_mem ent hb) q hq
              · obtain ⟨m, hm, rfl⟩ := List.mem_map.mp hb
                simp only [List.length_append, List.length_singleton]
                by_contra hcon
                push_neg at hcon
                have hmV : m ∈ V := by
                  refine inv.disc m q hq ?_
                  intro b2 hb2
                  rcases List.mem_cons.mp hb2 with rfl | hb2
                  · omega
                  · have := hheadLe b2 hb2
                    omega
                exact (hsub m hm).2 hmV
            have hExp1 : ∀ u ∈ V ++ new,
                (∀ b ∈ rest ++ new.map (fun m => (⟨m, ent.path ++ [m]⟩ : QEntry)), b.pos ≠ u) →
                ∀ nn, Adj st u nn → nn ∈ V ++ new := by
              intro u hu hno nn hAdj
              rcases List.mem_append.mp hu with huV | hunew
              · by_cases hue : u = ent.pos
                · subst hue
                  exact hall nn hAdj
                · refine List.mem_append_left _ (inv.expanded u huV ?_ nn hAdj)
                  intro b hb
                  rcases List.mem_cons.mp hb with rfl | hb
                  · exact fun h => hue h.symm
                  · exact hno b (List.mem_append_left _ hb)
              · exact absurd rfl
                  (hno ⟨u, ent.path ++ [u]⟩
    (List.mem_append_right _ (List.mem_map.mpr ⟨u, hunew, rfl⟩)))
            have hDisc1 : ∀ v q, PathOk st q s v →
                (∀ b ∈ rest ++ new.map (fun m => (⟨m, ent.path ++ [m]⟩ : QEntry)),
                  q.length ≤ b.path.length) →
                v ∈ V ++ new := by
              intro v q hq hb
              by_cases hql : q.length ≤ ent.path.length
              · refine List.mem_append_left _ (inv.disc v q hq ?_)
                intro b2 hb2
                rcases List.mem_cons.mp hb2 with rfl | hb2
                · exact hql
                · exact hql.trans (hheadLe b2 hb2)
              · push_neg at hql
                cases hQ1e : rest ++ new.map (fun m => (⟨m, ent.path ++ [m]⟩ : QEntry)) with
                | nil =>
                    obtain ⟨hrnil, hmnil⟩ := List.append_eq_nil.mp hQ1e
                    have hnewnil : new = [] := List.map_eq_nil.mp hmnil
                    have hsV : s ∈ V :=
                      inv.disc s [s] (pathOk_single hs)
                        (fun b hb2 => pathOk_length_pos (inv.entPath b hb2))
                    have hcl : ∀ u ∈ V ++ new, ∀ nn, Adj st u nn → nn ∈ V ++ new := by
                      intro u hu nn hAdj
                      refine hExp1 u hu ?_ nn hAdj
                      rw [hQ1e]
                      intro b hb2
                      exact absurd hb2 (List.not_mem_nil b)
                    exact pathOk_closed hcl q s v (List.mem_append_left _ hsV) hq
                | cons b1 Q1t =>
                    have hb1 : b1 ∈ rest ++ new.map (fun m => (⟨m, ent.path ++ [m]⟩ : QEntry)) := by
                      rw [hQ1e]
                      exact List.mem_cons_self _ _
                    have hqUB : q.length ≤ ent.path.length + 1 :=
                      (hb b1 hb1).trans (hQ1ub b1 hb1)
                    obtain ⟨q0, p, hqeq, hq0, hadj, hqlen⟩ := pathOk_dropLast hq (by omega)
                    have hq0len : q0.length = ent.path.length := by omega
                    have hpV : p ∈ V := by
                      refine inv.disc p q0 hq0 ?_
                      intro b2 hb2
                      rcases List.mem_cons.mp hb2 with rfl | hb2
                      · omega
                      · have := hheadLe b2 hb2
                        omega
                    have hpno : ∀ b2 ∈ rest ++ new.map (fun m => (⟨m, ent.path ++ [m]⟩ : QEntry)),
                        b2.pos ≠ p := by
                      intro b2 hb2 heq
                      have hminp : b2.path.length ≤ q0.length :=
                        hMin1 b2 hb2 q0 (by rw [heq]; exact hq0)
                      have := hb b2 hb2
                      omega
                    exact hExp1 p (List.mem_append_left _ hpV) hpno v hadj
            have inv1 : BfsInv st s (rest ++ new.map (fun m => (⟨m, ent.path ++ [m]⟩ : QEntry)))
                (V ++ new) := by
              refine ⟨?_, ?_, ?_, ?_, ?_, ?_, ?_, hMin1, hExp1, hDisc1⟩
              · intro b hb
                rcases List.mem_append.mp hb with hb | hb
                · exact inv.entPath b (List.mem_cons_of_mem ent hb)
                · obtain ⟨m, hm, rfl⟩ := List.mem_map.mp hb
                  exact hnewPath m hm
              · intro b hb
                rcases List.mem_append.mp hb with hb | hb
                · exact List.mem_append_left _ (inv.entVis b (List.mem_cons_of_mem ent hb))
                · obtain ⟨m, hm, rfl⟩ := List.mem_map.mp hb
                  exact List.mem_append_right _ hm
              · exact List.nodup_append.mpr
                  ⟨inv.visNodup, hnd, fun a haV hanew => (hsub a hanew).2 haV⟩
              · intro v hv
                rcases List.mem_append.mp hv with hv | hv
                · exact inv.visInB v hv
                · exact hnewInB v hv
              · intro v hv
                rcases List.mem_append.mp hv with hv | hv
                · exact inv.visReach v hv
                · exact ⟨ent.path ++ [v], hnewPath v hv⟩
              · refine List.pairwise_append.mpr ⟨hrestSorted, ?_, ?_⟩
                · refine List.pairwise_of_forall_mem_list ?_
                  intro a ha b hb
                  obtain ⟨m1, hm1, rfl⟩ := List.mem_map.mp ha
                  obtain ⟨m2, hm2, rfl⟩ := List.mem_map.mp hb
                  simp [List.length_append]
                · intro a ha b hb
                  obtain ⟨m2, hm2, rfl⟩ := List.mem_map.mp hb
                  have h1 := hUB a (List.mem_cons_of_mem ent ha)
                  simp only [List.length_append, List.length_singleton]
                  omega
              · intro a ha b hb
                have h1 := hQ1lb a ha
                have h2 := hQ1ub b hb
                omega
            have htr1 : t ∈ V ++ new →
                ∃ b ∈ rest ++ new.map (fun m => (⟨m, ent.path ++ [m]⟩ : QEntry)), b.pos = t := by
              intro htV1
              rcases List.mem_append.mp htV1 with htV | htnew
              · obtain ⟨b, hb, hbt⟩ := htr htV
                rcases List.mem_cons.mp hb with rfl | hb
                · exact absurd hbt hpt
                · exact ⟨b, List.mem_append_left _ hb, hbt⟩
              · exact ⟨⟨t, ent.path ++ [t]⟩,
                  List.mem_append_right _ (List.mem_map.mpr ⟨t, htnew, rfl⟩), rfl⟩
            have hmeas : remCount st (V ++ new) +
                (rest ++ new.map (fun m => (⟨m, ent.path ++ [m]⟩ : QEntry))).length < n := by
              have hrc := @remCount_append st new V hnd hnewInB
                (fun m hm => (hsub m hm).2)
              simp only [List.length_append, List.length_map, List.length_cons] at hm ⊢
              omega
            obtain ⟨res, hres, hok⟩ := ih _ _ inv1 htr1 hmeas
            refine ⟨res, ?_, hok⟩
            simp only [bfsLoop]
            rw [if_neg hpt]
            have hgv : getValidNeighbors st ent.pos = some (nbrs st ent.pos) := by
              unfold getValidNeighbors
              rw [if_pos hiB]
            rw [hgv]
            show bfsLoop st t n ((nbrs st ent.pos).foldl (bfsPush ent) (rest, V)).1
              ((nbrs st ent.pos).foldl (bfsPush ent) (rest, V)).2 = some res
            rw [hQ1, hV1]
            exact hres

/-- The full behaviour of `findPath` from an in-bounds start: it always
returns (with the stated fuel), and the result is `[]` exactly when the
target is unreachable, and otherwise a shortest path. -/
theorem findPath_spec (st : MazeState) (s t : Pos) (hs : inBP st s) :
    ∃ res, findPath st s t = some res ∧
      ((¬ Reachable st s t ∧ res = []) ∨
        (PathOk st res s t ∧ ∀ q, PathOk st q s t → res.length ≤ q.length)) := by
  have inv0 : BfsInv st s [⟨s, [s]⟩] [s] := by
    refine ⟨?_, ?_, ?_, ?_, ?_, ?_, ?_, ?_, ?_, ?_⟩
    · intro ent hent
      rw [List.mem_singleton] at hent
      subst hent
      exact pathOk_single hs
    · intro ent hent
      rw [List.mem_singleton] at hent
      subst hent
      simp
    · simp
    · intro v hv
      rw [List.mem_singleton] at hv
      subst hv
      exact hs
    · intro v hv
      rw [List.mem_singleton] at hv
      subst hv
      exact ⟨[v], pathOk_single hs⟩
    · simp
    · intro a ha b hb
      rw [List.mem_singleton] at ha hb
      subst ha; subst hb
      omega
    · intro ent hent q hq
      rw [List.mem_singleton] at hent
      subst hent
      simpa using pathOk_length_pos hq
    · intro u hu hno nn hAdj
      rw [List.mem_singleton] at hu
      subst hu
      exact absurd rfl (hno ⟨u, [u]⟩ (List.mem_singleton.mpr rfl))
    · intro v q hq hb
      have h1 := hb ⟨s, [s]⟩ (List.mem_singleton.mpr rfl)
      have h2 := pathOk_length_pos hq
      simp only [List.length_singleton] at h1
      obtain ⟨rfl, -⟩ := pathOk_length_one hq (by omega)
      simp
  have htr0 : t ∈ [s] → ∃ ent ∈ [(⟨s, [s]⟩ : QEntry)], ent.pos = t := by
    intro ht
    rw [List.mem_singleton] at ht
    exact ⟨⟨s, [s]⟩, List.mem_singleton.mpr rfl, ht.symm⟩
  have hm0 : remCount st [s] + [(⟨s, [s]⟩ : QEntry)].length < st.width * st.height + 1 := by
    have h1 := @remCount_snoc st ([] : List Pos) s hs (List.not_mem_nil s)
    have h2 : remCount st [] = st.width * st.height := by
      unfold remCount
      rw [Finset.filter_true_of_mem (fun _ _ => List.not_mem_nil _)]
      exact gridFinset_card st
    simp only [List.nil_append] at h1
    simp only [List.length_singleton]
    omega
  exact bfsLoop_spec st s t hs (st.width * st.height + 1) _ _ inv0 htr0 hm0

theorem findPath_empty_not_reachable {st : MazeState} {s t : Pos} (hs : inBP st s)
    (h : findPath st s t = some []) : ¬ Reachable st s t := by
  obtain ⟨res, hres, hok⟩ := findPath_spec st s t hs
  rw [hres] at h
  obtain rfl : res = [] := Option.some.inj h
  rcases hok with ⟨hnr, -⟩ | ⟨hp, -⟩
  · exact hnr
  · exact absurd rfl (pathOk_ne_nil hp)

theorem findPath_cons_reachable {st : MazeState} {s t p : Pos} {ps : List Pos}
    (hs : inBP st s) (h : findPath st s t = some (p :: ps)) : Reachable st s t := by
  obtain ⟨res, hres, hok⟩ := findPath_spec st s t hs
  rw [hres] at h
  obtain rfl : res = p :: ps := Option.some.inj h
  rcases hok with ⟨-, habs⟩ | ⟨hp, -⟩
  · exact absurd habs (List.cons_ne_nil p ps)
  · exact ⟨p :: ps, hp⟩

theorem findPath_isSome (st : MazeState) (s t : Pos) (hs : inBP st s) :
    ∃ res, findPath st s t = some res :=
  (findPath_spec st s t hs).imp (fun _ h => h.1)

/-- C2: for every maze and every pair of in-bounds positions with `end`
reachable from `start` through open walls, `findPath` returns a
non-empty sequence beginning with `start`, ending with `end`, stepping
only between grid-adjacent open-wall-connected cells, whose length is
minimal among all such paths. -/
theorem findPath_shortest (st : MazeState) (s e : Pos) (hs : inBP st s) (he : inBP st e)
    (hr : Reachable st s e) :
    ∃ p, findPath st s e = some p ∧ p ≠ [] ∧ p.head? = some s ∧ p.getLast? = some e ∧
      List.Chain' (Adj st) p ∧ ∀ q, PathOk st q s e → p.length ≤ q.length := by
  obtain ⟨res, hres, hok⟩ := findPath_spec st s e hs
  rcases hok with ⟨hnr, -⟩ | ⟨hp, hmin⟩
  · exact absurd hr hnr
  · exact ⟨res, hres, pathOk_ne_nil hp, hp.1, hp.2.1, hp.2.2.1, hmin⟩

theorem chainAdjB_sound {st : MazeState} :
    ∀ {l : List Pos}, chainAdjB st l = true → List.Chain' (Adj st) l
  | [], _ => List.chain'_nil
  | [a], _ => List.chain'_singleton a
  | a :: b :: rest, h => by
      rw [chainAdjB, Bool.and_eq_true, decide_eq_true_eq] at h
      exact List.chain'_cons.mpr ⟨h.1, chainAdjB_sound h.2⟩

theorem pathOk_of_checks {st : MazeState} {l : List Pos} {s e : Pos}
    (h1 : l.head? = some s) (h2 : l.getLast? = some e)
    (h3 : chainAdjB st l = true) (h4 : ∀ p ∈ l, inBP st p) : PathOk st l s e :=
  ⟨h1, h2, chainAdjB_sound h3, h4⟩

theorem findPath_shortest_witness :
    (inBP mCarved ⟨0, 0⟩ ∧ inBP mCarved ⟨1, 1⟩ ∧ Reachable mCarved ⟨0, 0⟩ ⟨1, 1⟩) ∧
    (∃ p, findPath mCarved ⟨0, 0⟩ ⟨1, 1⟩ = some p ∧ p ≠ [] ∧
      p.head? = some ⟨0, 0⟩ ∧ p.getLast? = some ⟨1, 1⟩ ∧
      List.Chain' (Adj mCarved) p ∧
      ∀ q, PathOk mCarved q ⟨0, 0⟩ ⟨1, 1⟩ → p.length ≤ q.length) :=
  ⟨⟨by decide, by decide,
      ⟨[⟨0, 0⟩, ⟨1, 0⟩, ⟨1, 1⟩],
        pathOk_of_checks (by decide) (by decide) (by decide) (by decide)⟩⟩,
    findPath_shortest mCarved ⟨0, 0⟩ ⟨1, 1⟩ (by decide) (by decide)
      ⟨[⟨0, 0⟩, ⟨1, 0⟩, ⟨1, 1⟩],
        pathOk_of_checks (by decide) (by decide) (by decide) (by decide)⟩⟩

/-- C6: for every maze and every pair of in-bounds positions,
`findPath` returns the empty sequence exactly when no open-wall path
from start to end exists. -/
theorem findPath_empty_iff (st : MazeState) (s e : Pos) (hs : inBP st s) (he : inBP st e) :
    findPath st s e = some [] ↔ ¬ Reachable st s e := by
  obtain ⟨res, hres, hok⟩ := findPath_spec st s e hs
  constructor
  · intro hempty
    exact findPath_empty_not_reachable hs hempty
  · intro hnr
    rcases hok with ⟨-, rfl⟩ | ⟨hp, -⟩
    · exact hres
    · exact absurd ⟨res, hp⟩ hnr

theorem findPath_empty_iff_witness :
    (inBP mClosed ⟨0, 0⟩ ∧ inBP mClosed ⟨1, 1⟩) ∧
    (findPath mClosed ⟨0, 0⟩ ⟨1, 1⟩ = some [] ↔ ¬ Reachable mClosed ⟨0, 0⟩ ⟨1, 1⟩) :=
  ⟨⟨by decide, by decide⟩, findPath_empty_iff mClosed ⟨0, 0⟩ ⟨1, 1⟩ (by decide) (by decide)⟩

/-- C5 (corrected): `getCell` returns `null` out of bounds, and
`findPath` from an in-bounds start to an out-of-bounds end returns the
empty sequence; but an out-of-bounds *start* is not rejected: if it
equals the end it is returned as a one-element path, and otherwise the
loop dereferences the out-of-bounds cell (a crash, `none` here) instead
of returning an empty result. -/
theorem oob_handling :
    (∀ (st : MazeState) (x y : ℤ), ¬ inB st x y → getCell st x y = none) ∧
    (∀ (st : MazeState) (s e : Pos), inBP st s → ¬ inBP st e →
      findPath st s e = some []) ∧
    (∀ (st : MazeState) (s : Pos), findPath st s s = some [s]) ∧
    (∀ (st : MazeState) (s e : Pos), ¬ inBP st s → s ≠ e → findPath st s e = none) := by
  refine ⟨?_, ?_, ?_, ?_⟩
  · intro st x y h
    unfold getCell
    rw [if_neg h]
  · intro st s e hsin heoob
    obtain ⟨res, hres, hok⟩ := findPath_spec st s e hsin
    rcases hok with ⟨-, rfl⟩ | ⟨hp, -⟩
    · exact hres
    · exact absurd (pathOk_end_inB hp) heoob
  · intro st s
    simp [findPath, bfsLoop]
  · intro st s e hsoob hne
    show bfsLoop st e (st.width * st.height + 1) [⟨s, [s]⟩] [s] = none
    simp only [bfsLoop]
    rw [if_neg hne]
    unfold getValidNeighbors
    rw [if_neg hsoob]

theorem oob_handling_witness :
    getCell mClosed 5 0 = none ∧ findPath mClosed ⟨0, 0⟩ ⟨7, 7⟩ = some [] ∧
      findPath mClosed ⟨9, 9⟩ ⟨0, 0⟩ = none :=
  ⟨oob_handling.1 mClosed 5 0 (by decide),
    oob_handling.2.1 mClosed ⟨0, 0⟩ ⟨7, 7⟩ (by decide) (by decide),
    oob_handling.2.2.2 mClosed ⟨9, 9⟩ ⟨0, 0⟩ (by decide) (by decide)⟩

/-- C5, counterexample to the claim as stated: `findPath` called with
the out-of-bounds position `(5, 5)` as both start and end returns the
one-element path `[(5, 5)]`, not an empty sequence. -/
theorem oob_counterexample :
    findPath mClosed ⟨5, 5⟩ ⟨5, 5⟩ = some [⟨5, 5⟩] ∧ ¬ inBP mClosed ⟨5, 5⟩ ∧
      some [(⟨5, 5⟩ : Pos)] ≠ some ([] : List Pos) := by
  exact ⟨by decide, by decide, by decide⟩

/-! #### Point updates of the grid -/

theorem setWall_cells (st : MazeState) (x y : ℤ) (d : Dir) (v : Bool) (a b : ℤ) :
    (setWall st x y d v).cells a b =
      if a = x ∧ b = y then
        { walls := wallSet (st.cells a b).walls d v, visited := (st.cells a b).visited }
      else st.cells a b := rfl

theorem setWall_width (st : MazeState) (x y : ℤ) (d : Dir) (v : Bool) :
    (setWall st x y d v).width = st.width := rfl

theorem setWall_height (st : MazeState) (x y : ℤ) (d : Dir) (v : Bool) :
    (setWall st x y d v).height = st.height := rfl

theorem markVisited_cells (st : MazeState) (x y : ℤ) (a b : ℤ) :
    (markVisited st x y).cells a b =
      if a = x ∧ b = y then
        { walls := (st.cells a b).walls, visited := true }
      else st.cells a b := rfl

theorem markVisited_walls (st : MazeState) (x y : ℤ) (a b : ℤ) :
    ((markVisited st x y).cells a b).walls = (st.cells a b).walls := by
  rw [markVisited_cells]
  split <;> rfl

theorem wallSym_of_walls_eq {s t : MazeState}
    (hw : t.width = s.width) (hh : t.height = s.height)
    (hc : ∀ a b : ℤ, (t.cells a b).walls = (s.cells a b).walls)
    (hsym : WallSym s) : WallSym t := by
  intro a ha b hb
  rw [hw] at ha
  rw [hh] at hb
  have hcl := hsym a ha b hb
  rw [hw, hh]
  constructor
  · intro hlt
    rw [hc, hc]
    exact hcl.1 hlt
  · intro hlt
    rw [hc, hc]
    exact hcl.2 hlt

theorem wallSym_markVisited {st : MazeState} (x y : ℤ) (hsym : WallSym st) :
    WallSym (markVisited st x y) :=
  wallSym_of_walls_eq (s := st) (t := markVisited st x y) rfl rfl
    (markVisited_walls st x y) hsym

theorem wallSym_pair_set {st : MazeState} {x y nx ny : ℤ} {d : Dir} {v : Bool}
    (hnx : nx = x + (delta d).1) (hny : ny = y + (delta d).2) (hsym : WallSym st) :
    WallSym (setWall (setWall st x y d v) nx ny (opposite d) v) := by
  subst hnx
  subst hny
  intro a ha b hb
  have haw : a < st.width := ha
  have hbw : b < st.height := hb
  have hcl := hsym a haw b hbw
  cases d <;>
    (constructor <;> intro hlt <;>
      simp only [delta, opposite, setWall_cells] <;>
      split_ifs <;>
      (try simp only [wallSet]) <;>
      first
      | rfl
      | exact hcl.1 hlt
      | exact hcl.2 hlt
      | omega)

theorem getNeighborPosition_spec {st : MazeState} {x y : ℤ} {d : Dir} {n : Pos}
    (h : getNeighborPosition st x y d = some n) :
    n.x = x + (delta d).1 ∧ n.y = y + (delta d).2 := by
  cases d <;> simp only [getNeighborPosition] at h <;> split at h <;>
    first
    | exact absurd h (fun hx => Option.noConfusion hx)
    | (obtain rfl := Option.some.inj h
       constructor <;> (dsimp only [delta]; try omega))

theorem getNeighborPosition_none_top {st : MazeState} {x y : ℤ}
    (h : getNeighborPosition st x y Dir.top = none) : ¬ 0 < y := by
  intro hy
  unfold getNeighborPosition at h
  rw [if_pos hy] at h
  exact absurd h (fun hx => Option.noConfusion hx)

theorem getNeighborPosition_none_bottom {st : MazeState} {x y : ℤ}
    (h : getNeighborPosition st x y Dir.bottom = none) : ¬ y < (st.height : ℤ) - 1 := by
  intro hy
  unfold getNeighborPosition at h
  rw [if_pos hy] at h
  exact absurd h (fun hx => Option.noConfusion hx)

theorem getNeighborPosition_none_left {st : MazeState} {x y : ℤ}
    (h : getNeighborPosition st x y Dir.left = none) : ¬ 0 < x := by
  intro hy
  unfold getNeighborPosition at h
  rw [if_pos hy] at h
  exact absurd h (fun hx => Option.noConfusion hx)

theorem getNeighborPosition_none_right {st : MazeState} {x y : ℤ}
    (h : getNeighborPosition st x y Dir.right = none) : ¬ x < (st.width : ℤ) - 1 := by
  intro hy
  unfold getNeighborPosition at h
  rw [if_pos hy] at h
  exact absurd h (fun hx => Option.noConfusion hx)

theorem wallSym_single_set {st : MazeState} {x y : ℤ} {d : Dir} {v : Bool}
    (hsym : WallSym st) (hnone : getNeighborPosition st x y d = none) :
    WallSym (setWall st x y d v) := by
  intro a ha b hb
  have haw : a < st.width := ha
  have hbw : b < st.height := hb
  have hcl := hsym a haw b hbw
  cases d
  case top =>
    have hy := getNeighborPosition_none_top hnone
    constructor <;> intro hlt <;>
      (try simp only [setWall_width, setWall_height] at hlt) <;>
      simp only [setWall_cells] <;> split_ifs <;> (try simp only [wallSet]) <;>
      first
      | rfl
      | exact hcl.1 hlt
      | exact hcl.2 hlt
      | omega
  case bottom =>
    have hy := getNeighborPosition_none_bottom hnone
    constructor <;> intro hlt <;>
      (try simp only [setWall_width, setWall_height] at hlt) <;>
      simp only [setWall_cells] <;> split_ifs <;> (try simp only [wallSet]) <;>
      first
      | rfl
      | exact hcl.1 hlt
      | exact hcl.2 hlt
      | omega
  case left =>
    have hx := getNeighborPosition_none_left hnone
    constructor <;> intro hlt <;>
      (try simp only [setWall_width, setWall_height] at hlt) <;>
      simp only [setWall_cells] <;> split_ifs <;> (try simp only [wallSet]) <;>
      first
      | rfl
      | exact hcl.1 hlt
      | exact hcl.2 hlt
      | omega
  case right =>
    have hx := getNeighborPosition_none_right hnone
    constructor <;> intro hlt <;>
      (try simp only [setWall_width, setWall_height] at hlt) <;>
      simp only [setWall_cells] <;> split_ifs <;> (try simp only [wallSet]) <;>
      first
      | rfl
      | exact hcl.1 hlt
      | exact hcl.2 hlt
      | omega

/-! #### Wall symmetry through the generation phases -/

theorem wallSym_init (w h : ℕ) : WallSym (initializeCells w h) :=
  fun _ _ _ _ => ⟨fun _ => rfl, fun _ => rfl⟩

theorem wallSym_openPair {st : MazeState} (x y : ℤ) (d : Dir) (hsym : WallSym st) :
    WallSym (openPair st x y d) :=
  wallSym_pair_set rfl rfl hsym

theorem wallSym_carveFold (n : ℕ) (x y : ℤ)
    (ih : ∀ (st : MazeState) (g : Rng) (a b : ℤ), WallSym st → WallSym (carve n st g a b).1) :
    ∀ (ds : List Dir) (acc : MazeState × Rng), WallSym acc.1 →
      WallSym ((ds.foldl (fun acc d =>
        if inB acc.1 (x + (delta d).1) (y + (delta d).2) ∧
            (acc.1.cells (x + (delta d).1) (y + (delta d).2)).visited = false then
          carve n (openPair acc.1 x y d) acc.2 (x + (delta d).1) (y + (delta d).2)
        else acc) acc)).1 := by
  intro ds
  induction ds with
  | nil => intro acc h; exact h
  | cons d t iht =>
      intro acc h
      rw [List.foldl_cons]
      apply iht
      by_cases hc : inB acc.1 (x + (delta d).1) (y + (delta d).2) ∧
          (acc.1.cells (x + (delta d).1) (y + (delta d).2)).visited = false
      · rw [if_pos hc]
        exact ih _ _ _ _ (wallSym_openPair x y d h)
      · rw [if_neg hc]
        exact h

theorem wallSym_carve : ∀ (fuel : ℕ) (st : MazeState) (g : Rng) (x y : ℤ),
    WallSym st → WallSym (carve fuel st g x y).1 := by
  intro fuel
  induction fuel with
  | zero => intro st g x y h; exact h
  | succ n ih =>
      intro st g x y h
      show WallSym (((shuffleArray carveOrder g).1.foldl
        (fun acc d =>
          if inB acc.1 (x + (delta d).1) (y + (delta d).2) ∧
              (acc.1.cells (x + (delta d).1) (y + (delta d).2)).visited = false then
            carve n (openPair acc.1 x y d) acc.2 (x + (delta d).1) (y + (delta d).2)
          else acc)
        (markVisited st x y, (shuffleArray carveOrder g).2))).1
      exact wallSym_carveFold n x y ih _ _ (wallSym_markVisited x y h)

theorem wallSym_addLoopsIter {st : MazeState} (g : Rng) (hsym : WallSym st) :
    WallSym (addLoopsIter st g).1 := by
  simp only [addLoopsIter]
  split_ifs <;>
    first
    | exact wallSym_pair_set rfl rfl hsym
    | exact hsym

theorem wallSym_addLoops : ∀ (n : ℕ) (st : MazeState) (g : Rng),
    WallSym st → WallSym (addLoops st g n).1 := by
  intro n
  induction n with
  | zero => intro st g h; exact h
  | succ m ih =>
      intro st g h
      show WallSym (addLoops (addLoopsIter st g).1 (addLoopsIter st g).2 m).1
      exact ih _ _ (wallSym_addLoopsIter g h)

theorem wallSym_tryOpenDeadEnd {x y : ℤ} :
    ∀ (ds : List Dir) (st : MazeState), WallSym st →
      WallSym (tryOpenDeadEnd st x y ds) := by
  intro ds
  induction ds with
  | nil => intro st h; exact h
  | cons d t ih =>
      intro st h
      simp only [tryOpenDeadEnd]
      by_cases hw : wallGet (st.cells x y).walls d = true
      · rw [if_pos hw]
        cases hn : getNeighborPosition st x y d with
        | none => exact ih st h
        | some nb =>
            show WallSym (if countOpenings (st.cells nb.x nb.y) = 1 then
                setWall (setWall st x y d false) nb.x nb.y (opposite d) false
              else tryOpenDeadEnd st x y t)
            by_cases hop : countOpenings (st.cells nb.x nb.y) = 1
            · rw [if_pos hop]
              exact wallSym_pair_set (getNeighborPosition_spec hn).1
                (getNeighborPosition_spec hn).2 h
            · rw [if_neg hop]
              exact ih st h
      · rw [if_neg hw]
        exact ih st h

theorem wallSym_addDeadEndsIterA {st : MazeState} (g : Rng) (hsym : WallSym st) :
    WallSym (addDeadEndsIterA st g).1 := by
  simp only [addDeadEndsIterA]
  split_ifs with hop
  · exact wallSym_tryOpenDeadEnd _ _ hsym
  · exact hsym

theorem wallSym_addDeadEndsA : ∀ (n : ℕ) (st : MazeState) (g : Rng),
    WallSym st → WallSym (addDeadEndsA st g n).1 := by
  intro n
  induction n with
  | zero => intro st g h; exact h
  | succ m ih =>
      intro st g h
      show WallSym (addDeadEndsA (addDeadEndsIterA st g).1 (addDeadEndsIterA st g).2 m).1
      exact ih _ _ (wallSym_addDeadEndsIterA g h)

theorem wallSym_addDeadEndsIterB {st : MazeState} (g : Rng) (hsym : WallSym st) :
    WallSym (addDeadEndsIterB st g).1 := by
  simp only [addDeadEndsIterB]
  split_ifs with hop
  · exact wallSym_tryOpenDeadEnd _ _ hsym
  · exact hsym

theorem wallSym_addDeadEndsB : ∀ (n : ℕ) (st : MazeState) (g : Rng),
    WallSym st → WallSym (addDeadEndsB st g n).1 := by
  intro n
  induction n with
  | zero => intro st g h; exact h
  | succ m ih =>
      intro st g h
      show WallSym (addDeadEndsB (addDeadEndsIterB st g).1 (addDeadEndsIterB st g).2 m).1
      exact ih _ _ (wallSym_addDeadEndsIterB g h)

theorem wallSym_addExtraWallsIter {st : MazeState} {g : Rng} {r : MazeState × Rng}
    (hr : addExtraWallsIter st g = some r) (hsym : WallSym st) : WallSym r.1 := by
  simp only [addExtraWallsIter] at hr
  split_ifs at hr with hin halt
  · split at hr
    next nb heq =>
      obtain rfl := (Option.some.inj hr).symm
      exact wallSym_pair_set (getNeighborPosition_spec heq).1
        (getNeighborPosition_spec heq).2 hsym
    next heq =>
      obtain rfl := (Option.some.inj hr).symm
      exact wallSym_single_set hsym heq
  · obtain rfl := (Option.some.inj hr).symm
    exact hsym

theorem wallSym_addExtraWalls : ∀ (n : ℕ) (st : MazeState) (g : Rng) (r : MazeState × Rng),
    addExtraWalls st g n = some r → WallSym st → WallSym r.1 := by
  intro n
  induction n with
  | zero =>
      intro st g r hr h
      obtain rfl := (Option.some.inj hr).symm
      exact h
  | succ m ih =>
      intro st g r hr h
      rw [show addExtraWalls st g (m + 1) =
        (match addExtraWallsIter st g with
          | some r2 => addExtraWalls r2.1 r2.2 m
          | none => none) from rfl] at hr
      split at hr
      next r2 heq => exact ih _ _ _ hr (wallSym_addExtraWallsIter heq h)
      next heq => exact absurd hr (fun hx => Option.noConfusion hx)

/-- C3: the wall-symmetry invariant holds after every generation phase:
established by `initializeCells` and preserved by the recursive carving,
by `addLoops`, by both `addDeadEnds` variants, and by `addExtraWalls`
whenever it completes. -/
theorem wall_symmetry_phases :
    (∀ w h : ℕ, WallSym (initializeCells w h)) ∧
    (∀ (st : MazeState) (g : Rng) (x y : ℤ), WallSym st →
      WallSym (generateMazeRecursive st g x y).1) ∧
    (∀ (st : MazeState) (g : Rng) (n : ℕ), WallSym st → WallSym (addLoops st g n).1) ∧
    (∀ (st : MazeState) (g : Rng) (n : ℕ), WallSym st → WallSym (addDeadEndsA st g n).1) ∧
    (∀ (st : MazeState) (g : Rng) (n : ℕ), WallSym st → WallSym (addDeadEndsB st g n).1) ∧
    (∀ (st : MazeState) (g : Rng) (n : ℕ) (r : MazeState × Rng),
      addExtraWalls st g n = some r → WallSym st → WallSym r.1) :=
  ⟨wallSym_init,
    fun st g x y h => wallSym_carve _ st g x y h,
    fun st g n h => wallSym_addLoops n st g h,
    fun st g n h => wallSym_addDeadEndsA n st g h,
    fun st g n h => wallSym_addDeadEndsB n st g h,
    fun st g n r hr h => wallSym_addExtraWalls n st g r hr h⟩

set_option maxRecDepth 40000 in
theorem wall_symmetry_phases_witness :
    WallSym (initializeCells 3 3) ∧ WallSym mCarved3 ∧
      WallSym (addLoops mCarved [] 2).1 ∧ WallSym (addDeadEndsA mCarved [] 2).1 ∧
      WallSym (addDeadEndsB mCarved [] 2).1 ∧ WallSym aewRes.1 :=
  ⟨wall_symmetry_phases.1 3 3,
    wall_symmetry_phases.2.1 (initializeCells 3 3) [] 0 0 (wall_symmetry_phases.1 3 3),
    wall_symmetry_phases.2.2.1 mCarved [] 2 (by decide),
    wall_symmetry_phases.2.2.2.1 mCarved [] 2 (by decide),
    wall_symmetry_phases.2.2.2.2.1 mCarved [] 2 (by decide),
    wall_symmetry_phases.2.2.2.2.2 mCarved3 [0, 0, 1] 1 aewRes (by rfl) (by decide)⟩

/-! #### Carving steps only open walls -/

theorem wallGet_wallSet (w : Walls) (d dq : Dir) (v : Bool) :
    wallGet (wallSet w d v) dq = if dq = d then v else wallGet w dq := by
  cases d <;> cases dq <;> simp [wallGet, wallSet]

theorem wallsLe_refl (st : MazeState) : WallsLe st st := fun _ _ _ h => h

theorem wallsLe_trans {a b c : MazeState} (h1 : WallsLe a b) (h2 : WallsLe b c) :
    WallsLe a c := fun x y d h => h2 x y d (h1 x y d h)

theorem stepLe_refl (st : MazeState) : StepLe st st := ⟨rfl, rfl, wallsLe_refl st⟩

theorem stepLe_trans {a b c : MazeState} (h1 : StepLe a b) (h2 : StepLe b c) :
    StepLe a c :=
  ⟨h2.1.trans h1.1, h2.2.1.trans h1.2.1, wallsLe_trans h1.2.2 h2.2.2⟩

theorem wallsLe_setWall_false (st : MazeState) (x y : ℤ) (d : Dir) :
    WallsLe st (setWall st x y d false) := by
  intro a b dq h
  rw [setWall_cells]
  split
  · show wallGet (wallSet (st.cells a b).walls d false) dq = false
    rw [wallGet_wallSet]
    split_ifs with he
    · rfl
    · exact h
  · exact h

theorem stepLe_setWall_false (st : MazeState) (x y : ℤ) (d : Dir) :
    StepLe st (setWall st x y d false) := ⟨rfl, rfl, wallsLe_setWall_false st x y d⟩

theorem stepLe_addLoopsIter (st : MazeState) (g : Rng) : StepLe st (addLoopsIter st g).1 := by
  simp only [addLoopsIter]
  split_ifs <;>
    first
    | exact stepLe_trans (stepLe_setWall_false _ _ _ _) (stepLe_setWall_false _ _ _ _)
    | exact stepLe_refl st

theorem stepLe_addLoops : ∀ (n : ℕ) (st : MazeState) (g : Rng),
    StepLe st (addLoops st g n).1 := by
  intro n
  induction n with
  | zero => intro st g; exact stepLe_refl st
  | succ m ih =>
      intro st g
      show StepLe st (addLoops (addLoopsIter st g).1 (addLoopsIter st g).2 m).1
      exact stepLe_trans (stepLe_addLoopsIter st g) (ih _ _)

theorem stepLe_tryOpenDeadEnd {x y : ℤ} :
    ∀ (ds : List Dir) (st : MazeState), StepLe st (tryOpenDeadEnd st x y ds) := by
  intro ds
  induction ds with
  | nil => intro st; exact stepLe_refl st
  | cons d t ih =>
      intro st
      simp only [tryOpenDeadEnd]
      by_cases hw : wallGet (st.cells x y).walls d = true
      · rw [if_pos hw]
        cases hn : getNeighborPosition st x y d with
        | none => exact ih st
        | some nb =>
            show StepLe st (if countOpenings (st.cells nb.x nb.y) = 1 then
                setWall (setWall st x y d false) nb.x nb.y (opposite d) false
              else tryOpenDeadEnd st x y t)
            split_ifs with hop
            · exact stepLe_trans (stepLe_setWall_false _ _ _ _) (stepLe_setWall_false _ _ _ _)
            · exact ih st
      · rw [if_neg hw]
        exact ih st

theorem stepLe_addDeadEndsIterB (st : MazeState) (g : Rng) :
    StepLe st (addDeadEndsIterB st g).1 := by
  simp only [addDeadEndsIterB]
  split_ifs with hop
  · exact stepLe_tryOpenDeadEnd _ _
  · exact stepLe_refl st

theorem stepLe_addDeadEndsB : ∀ (n : ℕ) (st : MazeState) (g : Rng),
    StepLe st (addDeadEndsB st g n).1 := by
  intro n
  induction n with
  | zero => intro st g; exact stepLe_refl st
  | succ m ih =>
      intro st g
      show StepLe st (addDeadEndsB (addDeadEndsIterB st g).1 (addDeadEndsIterB st g).2 m).1
      exact stepLe_trans (stepLe_addDeadEndsIterB st g) (ih _ _)

theorem nbrs_mono {s t : MazeState} (h : StepLe s t) (p : Pos) :
    ∀ q, q ∈ nbrs s p → q ∈ nbrs t p := by
  obtain ⟨hw, hh, hle⟩ := h
  intro q hq
  unfold nbrs at hq ⊢
  rw [hw, hh]
  simp only [List.mem_append, List.mem_ite_nil_right, List.mem_singleton] at hq ⊢
  have ht := hle p.x p.y Dir.top
  have hr := hle p.x p.y Dir.right
  have hb := hle p.x p.y Dir.bottom
  have hl := hle p.x p.y Dir.left
  simp only [wallGet] at ht hr hb hl
  rcases hq with ((⟨hc, rfl⟩ | ⟨hc, rfl⟩) | ⟨hc, rfl⟩) | ⟨hc, rfl⟩
  · exact Or.inl (Or.inl (Or.inl ⟨⟨ht hc.1, hc.2⟩, rfl⟩))
  · exact Or.inl (Or.inl (Or.inr ⟨⟨hr hc.1, hc.2⟩, rfl⟩))
  · exact Or.inl (Or.inr ⟨⟨hb hc.1, hc.2⟩, rfl⟩)
  · exact Or.inr ⟨⟨hl hc.1, hc.2⟩, rfl⟩

theorem pathOk_mono {s t : MazeState} (h : StepLe s t) {l : List Pos} {a b : Pos}
    (hp : PathOk s l a b) : PathOk t l a b := by
  obtain ⟨h1, h2, h3, h4⟩ := hp
  refine ⟨h1, h2, ?_, ?_⟩
  · exact List.Chain'.imp (fun p q hpq => nbrs_mono h p q hpq) h3
  · intro p hp2
    have hin := h4 p hp2
    obtain ⟨hw, hh, -⟩ := h
    unfold inBP inB at hin ⊢
    rw [hw, hh]
    exact hin

theorem reachable_mono {s t : MazeState} (h : StepLe s t) {a b : Pos}
    (hr : Reachable s a b) : Reachable t a b :=
  hr.imp (fun _ hl => pathOk_mono h hl)

/-- C10: `addLoops` and `addDeadEnds` (part_003 variants) only ever open
walls — every wall open before stays open after — and consequently any
two cells mutually reachable through open walls beforehand remain
mutually reachable afterwards. -/
theorem addLoops_addDeadEnds_open_only :
    (∀ (st : MazeState) (g : Rng) (n : ℕ) (x y : ℤ) (d : Dir),
      wallGet (st.cells x y).walls d = false →
      wallGet ((addLoops st g n).1.cells x y).walls d = false) ∧
    (∀ (st : MazeState) (g : Rng) (n : ℕ) (x y : ℤ) (d : Dir),
      wallGet (st.cells x y).walls d = false →
      wallGet ((addDeadEndsB st g n).1.cells x y).walls d = false) ∧
    (∀ (st : MazeState) (g : Rng) (n : ℕ) (a b : Pos),
      Reachable st a b → Reachable (addLoops st g n).1 a b) ∧
    (∀ (st : MazeState) (g : Rng) (n : ℕ) (a b : Pos),
      Reachable st a b → Reachable (addDeadEndsB st g n).1 a b) :=
  ⟨fun st g n x y d hopen => (stepLe_addLoops n st g).2.2 x y d hopen,
    fun st g n x y d hopen => (stepLe_addDeadEndsB n st g).2.2 x y d hopen,
    fun st g n a b hr => reachable_mono (stepLe_addLoops n st g) hr,
    fun st g n a b hr => reachable_mono (stepLe_addDeadEndsB n st g) hr⟩

theorem addLoops_addDeadEnds_open_only_witness :
    (wallGet (mCarved.cells 0 0).walls Dir.right = false ∧
      Reachable mCarved ⟨0, 0⟩ ⟨1, 1⟩) ∧
    wallGet ((addLoops mCarved [] 2).1.cells 0 0).walls Dir.right = false ∧
    wallGet ((addDeadEndsB mCarved [] 2).1.cells 0 0).walls Dir.right = false ∧
    Reachable (addLoops mCarved [] 2).1 ⟨0, 0⟩ ⟨1, 1⟩ ∧
    Reachable (addDeadEndsB mCarved [] 2).1 ⟨0, 0⟩ ⟨1, 1⟩ :=
  ⟨⟨by decide, ⟨[⟨0, 0⟩, ⟨1, 0⟩, ⟨1, 1⟩],
      pathOk_of_checks (by decide) (by decide) (by decide) (by decide)⟩⟩,
    addLoops_addDeadEnds_open_only.1 mCarved [] 2 0 0 Dir.right (by decide),
    addLoops_addDeadEnds_open_only.2.1 mCarved [] 2 0 0 Dir.right (by decide),
    addLoops_addDeadEnds_open_only.2.2.1 mCarved [] 2 ⟨0, 0⟩ ⟨1, 1⟩
      ⟨[⟨0, 0⟩, ⟨1, 0⟩, ⟨1, 1⟩],
        pathOk_of_checks (by decide) (by decide) (by decide) (by decide)⟩,
    addLoops_addDeadEnds_open_only.2.2.2 mCarved [] 2 ⟨0, 0⟩ ⟨1, 1⟩
      ⟨[⟨0, 0⟩, ⟨1, 0⟩, ⟨1, 1⟩],
        pathOk_of_checks (by decide) (by decide) (by decide) (by decide)⟩⟩

/-! #### The shuffle returns a permutation -/

theorem count_set_of_get {α : Type} [DecidableEq α] :
    ∀ (l : List α) (i : ℕ) (a b x : α), l.get? i = some a →
      (l.set i b).count x + (if a = x then 1 else 0) =
        l.count x + (if b = x then 1 else 0) := by
  intro l
  induction l with
  | nil => intro i a b x h; simp at h
  | cons c t ih =>
      intro i a b x h
      cases i with
      | zero =>
          obtain rfl : c = a := Option.some.inj h
          show (b :: t).count x + _ = (c :: t).count x + _
          simp only [List.count_cons, beq_iff_eq]
          split_ifs <;> omega
      | succ m =>
          have h2 : t.get? m = some a := h
          show (c :: t.set m b).count x + _ = (c :: t).count x + _
          simp only [List.count_cons, beq_iff_eq]
          have h3 := ih m a b x h2
          split_ifs at h3 ⊢ <;> omega

theorem swapL_perm {α : Type} [DecidableEq α] (l : List α) (i j : ℕ) :
    (swapL l i j).Perm l := by
  unfold swapL
  cases hi : l.get? i with
  | none => exact List.Perm.refl l
  | some a =>
      cases hj : l.get? j with
      | none => exact List.Perm.refl l
      | some b =>
          show ((l.set i b).set j a).Perm l
          rw [List.perm_iff_count]
          intro x
          have hilen : i < l.length := by
            by_contra hcon
            rw [List.get?_eq_none.mpr (by omega)] at hi
            exact Option.noConfusion hi
          have h1 := count_set_of_get l i a b x hi
          by_cases hij : i = j
          · subst hij
            obtain rfl : a = b := Option.some.inj (hi.symm.trans hj)
            have hset : (l.set i a).get? i = some a := by
              rw [List.get?_eq_getElem?]
              exact List.getElem?_set_eq_of_lt a (by simpa using hilen)
            have h2 := count_set_of_get (l.set i a) i a a x hset
            omega
          · have hset : (l.set i b).get? j = some b := by
              rw [List.get?_set_ne b l hij]
              exact hj
            have h2 := count_set_of_get (l.set i b) j b a x hset
            omega

theorem shuffleAux_perm {α : Type} [DecidableEq α] :
    ∀ (k : ℕ) (l : List α) (g : Rng), ((shuffleAux k l g).1).Perm l := by
  intro k
  induction k with
  | zero => intro l g; exact List.Perm.refl l
  | succ m ih =>
      intro l g
      show ((shuffleAux m (swapL l (m + 1) (nextNat g (m + 2)).1) (nextNat g (m + 2)).2).1).Perm l
      exact (ih _ _).trans (swapL_perm _ _ _)

theorem shuffleArray_perm {α : Type} [DecidableEq α] (l : List α) (g : Rng) :
    ((shuffleArray l g).1).Perm l := shuffleAux_perm _ l g

/-! #### Counting unvisited cells -/

theorem unvisCount_le (st : MazeState) : unvisCount st ≤ st.width * st.height := by
  unfold unvisCount
  calc ((Finset.range st.width ×ˢ Finset.range st.height).filter
        (fun q => ¬ VIS st (q.1 : ℤ) (q.2 : ℤ))).card
      ≤ (Finset.range st.width ×ˢ Finset.range st.height).card :=
        Finset.card_filter_le _ _
    _ = st.width * st.height := by
        rw [Finset.card_product, Finset.card_range, Finset.card_range]

theorem unvisCount_pos {st : MazeState} {x y : ℤ} (hin : inB st x y) (hun : ¬ VIS st x y) :
    0 < unvisCount st := by
  obtain ⟨h1, h2, h3, h4⟩ := hin
  unfold unvisCount
  refine Finset.card_pos.mpr ⟨(x.toNat, y.toNat), ?_⟩
  rw [Finset.mem_filter]
  refine ⟨?_, ?_⟩
  · rw [Finset.mem_product]
    constructor <;> (rw [Finset.mem_range]; omega)
  · intro hv
    apply hun
    rwa [Int.toNat_of_nonneg h1, Int.toNat_of_nonneg h3] at hv

theorem unvisCount_mono {s t : MazeState} (hw : t.width = s.width) (hh : t.height = s.height)
    (hmono : ∀ a b : ℤ, VIS s a b → VIS t a b) : unvisCount t ≤ unvisCount s := by
  unfold unvisCount
  rw [hw, hh]
  apply Finset.card_le_card
  intro q hq
  rw [Finset.mem_filter] at hq ⊢
  exact ⟨hq.1, fun hv => hq.2 (hmono _ _ hv)⟩

theorem markVisited_vis (st : MazeState) (x y a b : ℤ) :
    VIS (markVisited st x y) a b ↔ (a = x ∧ b = y) ∨ VIS st a b := by
  unfold VIS
  rw [markVisited_cells]
  split_ifs with hc
  · simp [hc]
  · simp [hc]

theorem unvisCount_markVisited {st : MazeState} {x y : ℤ} (hin : inB st x y)
    (hun : ¬ VIS st x y) : unvisCount (markVisited st x y) + 1 = unvisCount st := by
  obtain ⟨h1, h2, h3, h4⟩ := hin
  unfold unvisCount
  have hw : (markVisited st x y).width = st.width := rfl
  have hh : (markVisited st x y).height = st.height := rfl
  rw [hw, hh]
  have hset : ((Finset.range st.width ×ˢ Finset.range st.height).filter
      (fun q => ¬ VIS (markVisited st x y) (q.1 : ℤ) (q.2 : ℤ))) =
      ((Finset.range st.width ×ˢ Finset.range st.height).filter
        (fun q => ¬ VIS st (q.1 : ℤ) (q.2 : ℤ))).erase (x.toNat, y.toNat) := by
    ext q
    simp only [Finset.mem_filter, Finset.mem_erase, markVisited_vis]
    constructor
    · rintro ⟨hq1, hq2⟩
      push_neg at hq2
      refine ⟨?_, hq1, hq2.2⟩
      intro hqe
      subst hqe
      exact hq2.1 (by omega) (by omega)
    · rintro ⟨hne, hq1, hq2⟩
      refine ⟨hq1, ?_⟩
      push_neg
      refine ⟨?_, hq2⟩
      intro hx hy
      exact hne (Prod.ext (by omega) (by omega))
  rw [hset]
  refine Finset.card_erase_add_one ?_
  rw [Finset.mem_filter]
  refine ⟨?_, ?_⟩
  · rw [Finset.mem_product]
    constructor <;> (rw [Finset.mem_range]; omega)
  · intro hv
    apply hun
    rwa [Int.toNat_of_nonneg h1, Int.toNat_of_nonneg h3] at hv

/-! #### Effects of `openPair` on cells and visited marks -/

theorem setWall_vis (st : MazeState) (x y : ℤ) (d : Dir) (v : Bool) (a b : ℤ) :
    VIS (setWall st x y d v) a b ↔ VIS st a b := by
  unfold VIS
  rw [setWall_cells]
  split <;> exact Iff.rfl

theorem openPair_vis (st : MazeState) (x y : ℤ) (d : Dir) (a b : ℤ) :
    VIS (openPair st x y d) a b ↔ VIS st a b := by
  unfold openPair
  rw [setWall_vis, setWall_vis]

theorem delta_ne_u (d : Dir) (x y : ℤ) : ¬ (x = x + (delta d).1 ∧ y = y + (delta d).2) := by
  cases d <;> (dsimp only [delta]; omega)

theorem delta_ne_v (d : Dir) (x y : ℤ) : ¬ (x + (delta d).1 = x ∧ y + (delta d).2 = y) := by
  cases d <;> (dsimp only [delta]; omega)

theorem openPair_cells_other {st : MazeState} {x y : ℤ} {d : Dir} {a b : ℤ}
    (h1 : ¬ (a = x ∧ b = y)) (h2 : ¬ (a = x + (delta d).1 ∧ b = y + (delta d).2)) :
    (openPair st x y d).cells a b = st.cells a b := by
  unfold openPair
  rw [setWall_cells, if_neg h2, setWall_cells, if_neg h1]

theorem openPair_cells_u (st : MazeState) (x y : ℤ) (d : Dir) :
    ((openPair st x y d).cells x y).walls = wallSet (st.cells x y).walls d false := by
  unfold openPair
  rw [setWall_cells, if_neg (delta_ne_u d x y), setWall_cells, if_pos ⟨rfl, rfl⟩]

theorem openPair_cells_v (st : MazeState) (x y : ℤ) (d : Dir) :
    ((openPair st x y d).cells (x + (delta d).1) (y + (delta d).2)).walls =
      wallSet (st.cells (x + (delta d).1) (y + (delta d).2)).walls (opposite d) false := by
  unfold openPair
  rw [setWall_cells, if_pos ⟨rfl, rfl⟩]
  show wallSet ((setWall st x y d false).cells _ _).walls (opposite d) false = _
  rw [setWall_cells, if_neg (delta_ne_v d x y)]

/-! #### Neighbour lists: congruence, characterisation, symmetry -/

theorem nbrs_congr {s t : MazeState} (p : Pos) (hw : t.width = s.width)
    (hh : t.height = s.height) (hc : (t.cells p.x p.y).walls = (s.cells p.x p.y).walls) :
    nbrs t p = nbrs s p := by
  unfold nbrs
  rw [hw, hh, hc]

theorem mem_nbrs_iff {st : MazeState} {p q : Pos} :
    q ∈ nbrs st p ↔
      ((st.cells p.x p.y).walls.top = false ∧ 0 < p.y ∧ q = ⟨p.x, p.y - 1⟩) ∨
      ((st.cells p.x p.y).walls.right = false ∧ p.x < (st.width : ℤ) - 1 ∧
        q = ⟨p.x + 1, p.y⟩) ∨
      ((st.cells p.x p.y).walls.bottom = false ∧ p.y < (st.height : ℤ) - 1 ∧
        q = ⟨p.x, p.y + 1⟩) ∨
      ((st.cells p.x p.y).walls.left = false ∧ 0 < p.x ∧ q = ⟨p.x - 1, p.y⟩) := by
  unfold nbrs
  simp only [List.mem_append, List.mem_ite_nil_right, List.mem_singleton]
  tauto

theorem nbrs_allClosed {st : MazeState} {p : Pos} (h : allClosed st p.x p.y) :
    nbrs st p = [] := by
  unfold nbrs
  rw [show (st.cells p.x p.y).walls = ⟨true, true, true, true⟩ from h]
  simp

theorem wallSym_right_of {st : MazeState} (hsym : WallSym st) {x y : ℤ} (hx : 0 ≤ x)
    (hy : 0 ≤ y) (hxw : x + 1 < (st.width : ℤ)) (hyh : y < (st.height : ℤ)) :
    (st.cells x y).walls.right = (st.cells (x + 1) y).walls.left := by
  have hx2 : ((x.toNat : ℤ)) = x := Int.toNat_of_nonneg hx
  have hy2 : ((y.toNat : ℤ)) = y := Int.toNat_of_nonneg hy
  have hc := (hsym x.toNat (by omega) y.toNat (by omega)).1 (by omega)
  rwa [hx2, hy2] at hc

theorem wallSym_bottom_of {st : MazeState} (hsym : WallSym st) {x y : ℤ} (hx : 0 ≤ x)
    (hy : 0 ≤ y) (hyh : y + 1 < (st.height : ℤ)) (hxw : x < (st.width : ℤ)) :
    (st.cells x y).walls.bottom = (st.cells x (y + 1)).walls.top := by
  have hx2 : ((x.toNat : ℤ)) = x := Int.toNat_of_nonneg hx
  have hy2 : ((y.toNat : ℤ)) = y := Int.toNat_of_nonneg hy
  have hc := (hsym x.toNat (by omega) y.toNat (by omega)).2 (by omega)
  rwa [hx2, hy2] at hc

theorem adj_symm {st : MazeState} (hsym : WallSym st) {p q : Pos} (hp : inBP st p)
    (h : Adj st p q) : Adj st q p := by
  have hp2 : 0 ≤ p.x ∧ p.x < (st.width : ℤ) ∧ 0 ≤ p.y ∧ p.y < (st.height : ℤ) := hp
  obtain ⟨px, py⟩ := p
  obtain ⟨hx0, hxw, hy0, hyh⟩ := hp2
  have hx0 : 0 ≤ px := hx0
  have hxw : px < (st.width : ℤ) := hxw
  have hy0 : 0 ≤ py := hy0
  have hyh : py < (st.height : ℤ) := hyh
  unfold Adj at h ⊢
  rw [mem_nbrs_iff] at h ⊢
  rcases h with ⟨hw, hb, rfl⟩ | ⟨hw, hb, rfl⟩ | ⟨hw, hb, rfl⟩ | ⟨hw, hb, rfl⟩
  · refine Or.inr (Or.inr (Or.inl ⟨?_, by dsimp only; omega, ?_⟩))
    · show (st.cells px (py - 1)).walls.bottom = false
      have hs := wallSym_bottom_of hsym (x := px) (y := py - 1) (by (try dsimp only at hx0 hb ⊢); omega)
        (by (try dsimp only at hb ⊢); omega) (by (try dsimp only at hyh ⊢); omega)
        (by (try dsimp only at hxw ⊢); omega)
      rw [show py - 1 + 1 = py from by omega] at hs
      rw [hs]
      exact hw
    · show (⟨px, py⟩ : Pos) = ⟨px, py - 1 + 1⟩
      rw [show py - 1 + 1 = py from by omega]
  · refine Or.inr (Or.inr (Or.inr ⟨?_, by dsimp only; omega, ?_⟩))
    · show (st.cells (px + 1) py).walls.left = false
      have hs := wallSym_right_of hsym (x := px) (y := py) (by (try dsimp only at hx0 ⊢); omega)
        (by (try dsimp only at hy0 ⊢); omega) (by (try dsimp only at hb ⊢); omega)
        (by (try dsimp only at hyh ⊢); omega)
      rw [← hs]
      exact hw
    · show (⟨px, py⟩ : Pos) = ⟨px + 1 - 1, py⟩
      rw [show px + 1 - 1 = px from by omega]
  · refine Or.inl ⟨?_, by dsimp only; omega, ?_⟩
    · show (st.cells px (py + 1)).walls.top = false
      have hs := wallSym_bottom_of hsym (x := px) (y := py) (by (try dsimp only at hx0 ⊢); omega)
        (by (try dsimp only at hy0 ⊢); omega) (by (try dsimp only at hb ⊢); omega)
        (by (try dsimp only at hxw ⊢); omega)
      rw [← hs]
      exact hw
    · show (⟨px, py⟩ : Pos) = ⟨px, py + 1 - 1⟩
      rw [show py + 1 - 1 = py from by omega]
  · refine Or.inr (Or.inl ⟨?_, by dsimp only; omega, ?_⟩)
    · show (st.cells (px - 1) py).walls.right = false
      have hs := wallSym_right_of hsym (x := px - 1) (y := py) (by (try dsimp only at hb ⊢); omega)
        (by (try dsimp only at hy0 ⊢); omega) (by (try dsimp only at hxw ⊢); omega)
        (by (try dsimp only at hyh ⊢); omega)
      rw [show px - 1 + 1 = px from by omega] at hs
      rw [hs]
      exact hw
    · show (⟨px, py⟩ : Pos) = ⟨px - 1 + 1, py⟩
      rw [show px - 1 + 1 = px from by omega]

theorem chain'_imp_of_mem {α : Type} {R S : α → α → Prop} :
    ∀ {l : List α}, (∀ a ∈ l, ∀ b ∈ l, R a b → S a b) → List.Chain' R l →
      List.Chain' S l := by
  intro l
  induction l with
  | nil => intro _ _; exact List.chain'_nil
  | cons a t ih =>
      intro h hc
      cases t with
      | nil => simp
      | cons b t2 =>
          rw [List.chain'_cons] at hc ⊢
          exact ⟨h a (by simp) b (by simp) hc.1,
            ih (fun p hp q hq => h p (by simp [hp]) q (by simp [hq])) hc.2⟩

theorem eq_single_of_nodup {v : Pos} {l : List Pos} (h1 : l.head? = some v)
    (h2 : l.getLast? = some v) (h3 : l.Nodup) : l = [v] := by
  cases l with
  | nil => exact absurd h1 (by simp)
  | cons a t =>
      obtain rfl : a = v := by simpa using h1
      cases t with
      | nil => rfl
      | cons b t2 =>
          exfalso
          rw [List.getLast?_cons_cons] at h2
          rw [List.nodup_cons] at h3
          exact h3.1 (List.mem_of_mem_getLast? h2)

theorem pathOk_reverse {st : MazeState} (hsym : WallSym st) {l : List Pos} {a b : Pos}
    (h : PathOk st l a b) : PathOk st l.reverse b a := by
  obtain ⟨h1, h2, h3, h4⟩ := h
  refine ⟨?_, ?_, ?_, ?_⟩
  · rw [List.head?_reverse]
    exact h2
  · rw [List.getLast?_reverse]
    exact h1
  · rw [List.chain'_reverse]
    exact chain'_imp_of_mem (fun p hp q hq hpq => adj_symm hsym (h4 p hp) hpq) h3
  · intro p hp
    exact h4 p (List.mem_reverse.mp hp)

theorem reachable_refl {st : MazeState} {p : Pos} (hp : inBP st p) : Reachable st p p :=
  ⟨[p], pathOk_single hp⟩

theorem reachable_symm {st : MazeState} (hsym : WallSym st) {a b : Pos}
    (h : Reachable st a b) : Reachable st b a := by
  obtain ⟨l, hl⟩ := h
  exact ⟨l.reverse, pathOk_reverse hsym hl⟩

/-! #### The edge added by `openPair` -/

theorem nbrs_openPair_u {st : MazeState} {x y : ℤ} {d : Dir}
    (hnin : inB st (x + (delta d).1) (y + (delta d).2)) {q : Pos} :
    q ∈ nbrs (openPair st x y d) ⟨x, y⟩ ↔
      q ∈ nbrs st ⟨x, y⟩ ∨ q = ⟨x + (delta d).1, y + (delta d).2⟩ := by
  have hw : (openPair st x y d).width = st.width := rfl
  have hh : (openPair st x y d).height = st.height := rfl
  have hcell := openPair_cells_u st x y d
  unfold inB at hnin
  rw [mem_nbrs_iff, mem_nbrs_iff, hw, hh]
  dsimp only
  rw [hcell]
  cases d
  · dsimp only [delta, wallSet] at hnin ⊢
    rw [show x + (0 : ℤ) = x from by omega, show y + (-1 : ℤ) = y - 1 from by omega]
    have hb : 0 < y := by omega
    clear hcell hw hh hnin
    simp only [eq_self_iff_true, true_and]
    itauto
  · dsimp only [delta, wallSet] at hnin ⊢
    rw [show y + (0 : ℤ) = y from by omega]
    have hb : x < (st.width : ℤ) - 1 := by omega
    clear hcell hw hh hnin
    simp only [eq_self_iff_true, true_and]
    itauto
  · dsimp only [delta, wallSet] at hnin ⊢
    rw [show x + (0 : ℤ) = x from by omega]
    have hb : y < (st.height : ℤ) - 1 := by omega
    clear hcell hw hh hnin
    simp only [eq_self_iff_true, true_and]
    itauto
  · dsimp only [delta, wallSet] at hnin ⊢
    rw [show x + (-1 : ℤ) = x - 1 from by omega, show y + (0 : ℤ) = y from by omega]
    have hb : 0 < x := by omega
    clear hcell hw hh hnin
    simp only [eq_self_iff_true, true_and]
    itauto

theorem nbrs_openPair_v {st : MazeState} {x y : ℤ} {d : Dir} (hin : inB st x y) {q : Pos} :
    q ∈ nbrs (openPair st x y d) ⟨x + (delta d).1, y + (delta d).2⟩ ↔
      q ∈ nbrs st ⟨x + (delta d).1, y + (delta d).2⟩ ∨ q = ⟨x, y⟩ := by
  have hw : (openPair st x y d).width = st.width := rfl
  have hh : (openPair st x y d).height = st.height := rfl
  have hcell := openPair_cells_v st x y d
  unfold inB at hin
  rw [mem_nbrs_iff, mem_nbrs_iff, hw, hh]
  dsimp only
  rw [hcell]
  cases d
  · dsimp only [delta, opposite, wallSet] at hin ⊢
    rw [show y + (-1 : ℤ) + 1 = y from by omega, show x + (0 : ℤ) = x from by omega]
    have hb : y + (-1 : ℤ) < (st.height : ℤ) - 1 := by omega
    clear hcell hw hh hin
    simp only [eq_self_iff_true, true_and]
    itauto
  · dsimp only [delta, opposite, wallSet] at hin ⊢
    rw [show x + (1 : ℤ) - 1 = x from by omega, show y + (0 : ℤ) = y from by omega]
    have hb : (0 : ℤ) < x + 1 := by omega
    clear hcell hw hh hin
    simp only [eq_self_iff_true, true_and]
    itauto
  · dsimp only [delta, opposite, wallSet] at hin ⊢
    rw [show y + (1 : ℤ) - 1 = y from by omega, show x + (0 : ℤ) = x from by omega]
    have hb : (0 : ℤ) < y + 1 := by omega
    clear hcell hw hh hin
    simp only [eq_self_iff_true, true_and]
    itauto
  · dsimp only [delta, opposite, wallSet] at hin ⊢
    rw [show x + (-1 : ℤ) + 1 = x from by omega, show y + (0 : ℤ) = y from by omega]
    have hb : x + (-1 : ℤ) < (st.width : ℤ) - 1 := by omega
    clear hcell hw hh hin
    simp only [eq_self_iff_true, true_and]
    itauto

theorem adj_openPair_iff {st : MazeState} {x y : ℤ} {d : Dir}
    (hin : inB st x y) (hnin : inB st (x + (delta d).1) (y + (delta d).2)) (p q : Pos) :
    Adj (openPair st x y d) p q ↔
      Adj st p q ∨ (p = ⟨x, y⟩ ∧ q = ⟨x + (delta d).1, y + (delta d).2⟩) ∨
        (p = ⟨x + (delta d).1, y + (delta d).2⟩ ∧ q = ⟨x, y⟩) := by
  have huv : (⟨x, y⟩ : Pos) ≠ ⟨x + (delta d).1, y + (delta d).2⟩ := by
    intro hcon
    exact delta_ne_u d x y ⟨congrArg Pos.x hcon, congrArg Pos.y hcon⟩
  obtain ⟨px, py⟩ := p
  by_cases hpu : (⟨px, py⟩ : Pos) = ⟨x, y⟩
  · rw [hpu]
    unfold Adj
    rw [nbrs_openPair_u hnin]
    constructor
    · rintro (hq | rfl)
      · exact Or.inl hq
      · exact Or.inr (Or.inl ⟨rfl, rfl⟩)
    · rintro (hq | ⟨h1, rfl⟩ | ⟨h1, rfl⟩)
      · exact Or.inl hq
      · exact Or.inr rfl
      · exact absurd h1 huv
  · by_cases hpv : (⟨px, py⟩ : Pos) = ⟨x + (delta d).1, y + (delta d).2⟩
    · rw [hpv]
      unfold Adj
      rw [nbrs_openPair_v hin]
      constructor
      · rintro (hq | rfl)
        · exact Or.inl hq
        · exact Or.inr (Or.inr ⟨rfl, rfl⟩)
      · rintro (hq | ⟨h1, rfl⟩ | ⟨h1, rfl⟩)
        · exact Or.inl hq
        · exact absurd h1.symm huv
        · exact Or.inr rfl
    · unfold Adj
      have hcells : ((openPair st x y d).cells px py).walls = (st.cells px py).walls := by
        rw [openPair_cells_other (fun hc => hpu (by rw [hc.1, hc.2]))
          (fun hc => hpv (by rw [hc.1, hc.2]))]
      rw [nbrs_congr (s := st) (t := openPair st x y d) ⟨px, py⟩ rfl rfl hcells]
      constructor
      · exact Or.inl
      · rintro (hq | ⟨h1, h2⟩ | ⟨h1, h2⟩)
        · exact hq
        · exact absurd h1 hpu
        · exact absurd h1 hpv

theorem stepLe_openPair (st : MazeState) (x y : ℤ) (d : Dir) :
    StepLe st (openPair st x y d) :=
  stepLe_trans (stepLe_setWall_false st x y d)
    (stepLe_setWall_false (setWall st x y d false) (x + (delta d).1) (y + (delta d).2)
      (opposite d))

/-! #### Paths never touch a fully-walled cell -/

theorem no_adj_to_isolated {st : MazeState} (hsym : WallSym st) {p v : Pos}
    (hp : inBP st p) (hv : allClosed st v.x v.y) : ¬ Adj st p v := by
  have hp2 : 0 ≤ p.x ∧ p.x < (st.width : ℤ) ∧ 0 ≤ p.y ∧ p.y < (st.height : ℤ) := hp
  obtain ⟨px, py⟩ := p
  obtain ⟨hx0, hxw, hy0, hyh⟩ := hp2
  have hx0 : 0 ≤ px := hx0
  have hxw : px < (st.width : ℤ) := hxw
  have hy0 : 0 ≤ py := hy0
  have hyh : py < (st.height : ℤ) := hyh
  intro h
  unfold Adj at h
  rw [mem_nbrs_iff] at h
  rcases h with ⟨hw, hb, hveq⟩ | ⟨hw, hb, hveq⟩ | ⟨hw, hb, hveq⟩ | ⟨hw, hb, hveq⟩ <;>
    subst hveq <;> unfold allClosed at hv <;> (try dsimp only at hv hw hb)
  · have hs := wallSym_bottom_of hsym (x := px) (y := py - 1) hx0 (by omega) (by omega) hxw
    rw [show py - 1 + 1 = py from by omega, hv, hw] at hs
    exact Bool.noConfusion hs
  · have hs := wallSym_right_of hsym (x := px) (y := py) hx0 hy0 (by omega) hyh
    rw [hw, hv] at hs
    exact Bool.noConfusion hs
  · have hs := wallSym_bottom_of hsym (x := px) (y := py) hx0 hy0 (by omega) hxw
    rw [hw, hv] at hs
    exact Bool.noConfusion hs
  · have hs := wallSym_right_of hsym (x := px - 1) (y := py) (by omega) hy0 (by omega) hyh
    rw [show px - 1 + 1 = px from by omega, hv, hw] at hs
    exact Bool.noConfusion hs

theorem pathOk_not_mem_isolated {st : MazeState} (hsym : WallSym st) {v : Pos}
    (hv : allClosed st v.x v.y) {l : List Pos} {a b : Pos} (h : PathOk st l a b)
    (ha : a ≠ v) : v ∉ l := by
  intro hmem
  obtain ⟨s1, t1, rfl⟩ := List.append_of_mem hmem
  obtain ⟨h1, h2, h3, h4⟩ := h
  cases s1 with
  | nil =>
      simp only [List.nil_append, List.head?_cons, Option.some.injEq] at h1
      exact ha h1.symm
  | cons c s2 =>
      rw [List.chain'_append] at h3
      obtain ⟨p, hpgl⟩ : ∃ p, (c :: s2).getLast? = some p := by
        cases hgl : (c :: s2).getLast? with
        | none => exact absurd hgl (by simp [List.getLast?_eq_none_iff])
        | some p => exact ⟨p, rfl⟩
      have hadj : Adj st p v := h3.2.2 p hpgl v rfl
      have hpmem : p ∈ (c :: s2) ++ v :: t1 :=
        List.mem_append_left _ (List.mem_of_mem_getLast? hpgl)
      exact no_adj_to_isolated hsym (h4 p hpmem) hv hadj

theorem openPair_path_avoids_new {st : MazeState} {x y : ℤ} {d : Dir} (hsym : WallSym st)
    (hin : inB st x y) (hnin : inB st (x + (delta d).1) (y + (delta d).2))
    (hnall : allClosed st (x + (delta d).1) (y + (delta d).2)) {l : List Pos} {a b : Pos}
    (h : PathOk (openPair st x y d) l a b) (hnd : l.Nodup)
    (ha : a ≠ ⟨x + (delta d).1, y + (delta d).2⟩)
    (hb : b ≠ ⟨x + (delta d).1, y + (delta d).2⟩) :
    (⟨x + (delta d).1, y + (delta d).2⟩ : Pos) ∉ l := by
  intro hmem
  obtain ⟨s1, t1, rfl⟩ := List.append_of_mem hmem
  obtain ⟨h1, h2, h3, h4⟩ := h
  cases s1 with
  | nil =>
      simp only [List.nil_append, List.head?_cons, Option.some.injEq] at h1
      exact ha h1.symm
  | cons c s2 =>
      cases t1 with
      | nil =>
          rw [List.getLast?_concat] at h2
          exact hb (Option.some.inj h2).symm
      | cons e t2 =>
          rw [List.chain'_append] at h3
          obtain ⟨p, hpgl⟩ : ∃ p, (c :: s2).getLast? = some p := by
            cases hgl : (c :: s2).getLast? with
            | none => exact absurd hgl (by simp [List.getLast?_eq_none_iff])
            | some p => exact ⟨p, rfl⟩
          have hadjpv := h3.2.2 p hpgl _ rfl
          have hc2 := h3.2.1
          rw [List.chain'_cons] at hc2
          have hadjve := hc2.1
          have hpu : p = ⟨x, y⟩ := by
            rcases (adj_openPair_iff hin hnin p _).mp hadjpv with hA | ⟨hp1, _⟩ | ⟨_, huv⟩
            · exact absurd hA (no_adj_to_isolated hsym
                (h4 p (List.mem_append_left _ (List.mem_of_mem_getLast? hpgl))) hnall)
            · exact hp1
            · exact absurd ⟨congrArg Pos.x huv, congrArg Pos.y huv⟩ (delta_ne_v d x y)
          have heu : e = ⟨x, y⟩ := by
            rcases (adj_openPair_iff hin hnin _ e).mp hadjve with hA | ⟨hvu, _⟩ | ⟨_, he1⟩
            · have : e ∈ ([] : List Pos) := by
                rw [← @nbrs_allClosed st ⟨x + (delta d).1, y + (delta d).2⟩ hnall]
                exact hA
              simp at this
            · exact absurd ⟨congrArg Pos.x hvu, congrArg Pos.y hvu⟩ (delta_ne_v d x y)
            · exact he1
          rw [List.nodup_append] at hnd
          exact hnd.2.2 (hpu ▸ List.mem_of_mem_getLast? hpgl)
            (heu ▸ List.mem_cons_of_mem _ (List.mem_cons_self e t2))

theorem pathOk_openPair_down {st : MazeState} {x y : ℤ} {d : Dir}
    (hin : inB st x y) (hnin : inB st (x + (delta d).1) (y + (delta d).2))
    {l : List Pos} {a b : Pos} (h : PathOk (openPair st x y d) l a b)
    (hv : (⟨x + (delta d).1, y + (delta d).2⟩ : Pos) ∉ l) : PathOk st l a b := by
  obtain ⟨h1, h2, h3, h4⟩ := h
  refine ⟨h1, h2, ?_, fun p hp => h4 p hp⟩
  refine chain'_imp_of_mem (fun p hp q hq hpq => ?_) h3
  rcases (adj_openPair_iff hin hnin p q).mp hpq with hA | ⟨h5, rfl⟩ | ⟨rfl, h5⟩
  · exact hA
  · exact absurd hq hv
  · exact absurd hp hv

/-- Opening the wall pair towards a fully-walled, in-grid cell extends
the unique-simple-path property from the visited region to the region
together with the newly attached cell (the leaf-addition step of the
spanning-tree argument). -/
theorem up_extend {st : MazeState} {x y : ℤ} {d : Dir} (hsym : WallSym st)
    (hin : inB st x y) (hvis : VIS st x y)
    (hnin : inB st (x + (delta d).1) (y + (delta d).2))
    (hnun : ¬ VIS st (x + (delta d).1) (y + (delta d).2))
    (hnall : allClosed st (x + (delta d).1) (y + (delta d).2))
    (hUP : ∀ a b : Pos, VIS st a.x a.y → VIS st b.x b.y → ∃! l, SimplePath st l a b) :
    ∀ a b : Pos,
      (VIS st a.x a.y ∨ a = ⟨x + (delta d).1, y + (delta d).2⟩) →
      (VIS st b.x b.y ∨ b = ⟨x + (delta d).1, y + (delta d).2⟩) →
      ∃! l, SimplePath (openPair st x y d) l a b := by
  have hstep : StepLe st (openPair st x y d) := stepLe_openPair st x y d
  have hsym2 : WallSym (openPair st x y d) := wallSym_openPair x y d hsym
  have hvne : ∀ {c : Pos}, VIS st c.x c.y →
      c ≠ (⟨x + (delta d).1, y + (delta d).2⟩ : Pos) := by
    intro c hc hceq
    rw [hceq] at hc
    exact hnun hc
  have hvbP : inBP (openPair st x y d) ⟨x + (delta d).1, y + (delta d).2⟩ := hnin
  have down : ∀ {l : List Pos} {a b : Pos},
      a ≠ (⟨x + (delta d).1, y + (delta d).2⟩ : Pos) →
      b ≠ (⟨x + (delta d).1, y + (delta d).2⟩ : Pos) →
      SimplePath (openPair st x y d) l a b → SimplePath st l a b := by
    intro l a b ha hb h
    have hvnotm := openPair_path_avoids_new hsym hin hnin hnall h.1 h.2 ha hb
    exact ⟨pathOk_openPair_down hin hnin h.1 hvnotm, h.2⟩
  have upT : ∀ {l : List Pos} {a b : Pos}, SimplePath st l a b →
      SimplePath (openPair st x y d) l a b := fun h => ⟨pathOk_mono hstep h.1, h.2⟩
  have hcase2 : ∀ a : Pos, VIS st a.x a.y →
      ∃! l, SimplePath (openPair st x y d) l a ⟨x + (delta d).1, y + (delta d).2⟩ := by
    intro a ha
    obtain ⟨l0, hl0, hl0u⟩ := hUP a ⟨x, y⟩ ha hvis
    have hv0 : (⟨x + (delta d).1, y + (delta d).2⟩ : Pos) ∉ l0 :=
      pathOk_not_mem_isolated hsym hnall hl0.1 (hvne ha)
    have hadjuv : Adj (openPair st x y d) ⟨x, y⟩ ⟨x + (delta d).1, y + (delta d).2⟩ :=
      (adj_openPair_iff hin hnin _ _).mpr (Or.inr (Or.inl ⟨rfl, rfl⟩))
    have hL : SimplePath (openPair st x y d)
        (l0 ++ [⟨x + (delta d).1, y + (delta d).2⟩]) a
        ⟨x + (delta d).1, y + (delta d).2⟩ := by
      refine ⟨pathOk_snoc (pathOk_mono hstep hl0.1) hadjuv hvbP, ?_⟩
      rw [List.nodup_append]
      exact ⟨hl0.2, List.nodup_singleton _, fun t ht1 ht2 => by
        rw [List.mem_singleton] at ht2
        subst ht2
        exact hv0 ht1⟩
    refine ⟨_, hL, ?_⟩
    intro l' hl'
    have hlen2 : 2 ≤ l'.length := by
      have hpos := pathOk_length_pos hl'.1
      by_contra hcon
      push_neg at hcon
      have hone : l'.length = 1 := by omega
      obtain ⟨heq, -⟩ := pathOk_length_one hl'.1 hone
      exact (hvne ha) heq.symm
    obtain ⟨q0, p0, hdec, hq0, hadj, -⟩ := pathOk_dropLast hl'.1 hlen2
    have hp0u : p0 = ⟨x, y⟩ := by
      have hp0b := pathOk_end_inB hq0
      rcases (adj_openPair_iff hin hnin p0 _).mp hadj with hA | ⟨h1, h2⟩ | ⟨h1, h2⟩
      · exact absurd hA
          (no_adj_to_isolated hsym (show inBP st p0 from hp0b) hnall)
      · exact h1
      · exact absurd ⟨congrArg Pos.x h2, congrArg Pos.y h2⟩ (delta_ne_v d x y)
    subst hp0u
    have hvq0 : (⟨x + (delta d).1, y + (delta d).2⟩ : Pos) ∉ q0 := by
      have hnd := hl'.2
      rw [hdec, List.nodup_append] at hnd
      intro hmem
      exact hnd.2.2 hmem (List.mem_singleton.mpr rfl)
    have hq0st : SimplePath st q0 a ⟨x, y⟩ :=
      ⟨pathOk_openPair_down hin hnin hq0 hvq0, by
        have hnd := hl'.2
        rw [hdec, List.nodup_append] at hnd
        exact hnd.1⟩
    have hq0eq : q0 = l0 := hl0u q0 hq0st
    rw [hdec, hq0eq]
  have hcase3 : ∀ b : Pos, VIS st b.x b.y →
      ∃! l, SimplePath (openPair st x y d) l ⟨x + (delta d).1, y + (delta d).2⟩ b := by
    intro b hb
    obtain ⟨m, hm, hmu⟩ := hcase2 b hb
    refine ⟨m.reverse, ⟨pathOk_reverse hsym2 hm.1, List.nodup_reverse.mpr hm.2⟩, ?_⟩
    intro l' hl'
    have hrev : l'.reverse = m :=
      hmu l'.reverse ⟨pathOk_reverse hsym2 hl'.1, List.nodup_reverse.mpr hl'.2⟩
    rw [← hrev, List.reverse_reverse]
  intro a b ha hb
  rcases ha with ha | rfl
  · rcases hb with hb | rfl
    · obtain ⟨l0, hl0, hl0u⟩ := hUP a b ha hb
      exact ⟨l0, upT hl0, fun l' hl' => hl0u l' (down (hvne ha) (hvne hb) hl')⟩
    · exact hcase2 a ha
  · rcases hb with hb | rfl
    · exact hcase3 b hb
    · refine ⟨[⟨x + (delta d).1, y + (delta d).2⟩],
        ⟨pathOk_single hvbP, List.nodup_singleton _⟩, ?_⟩
      intro l' hl'
      exact eq_single_of_nodup hl'.1.1 hl'.1.2.1 hl'.2

/-! #### The carving pass keeps the spanning-tree invariant -/

theorem unvisCount_openPair (st : MazeState) (x y : ℤ) (d : Dir) :
    unvisCount (openPair st x y d) = unvisCount st := by
  unfold unvisCount
  have hw : (openPair st x y d).width = st.width := rfl
  have hh : (openPair st x y d).height = st.height := rfl
  rw [hw, hh]
  congr 1
  apply Finset.filter_congr
  intro q hq
  rw [openPair_vis]

theorem pathOk_congr {s t : MazeState} (hw : t.width = s.width) (hh : t.height = s.height)
    (hc : ∀ a b : ℤ, (t.cells a b).walls = (s.cells a b).walls) {l : List Pos} {a b : Pos} :
    PathOk t l a b ↔ PathOk s l a b := by
  have hn : ∀ p : Pos, nbrs t p = nbrs s p := fun p => nbrs_congr p hw hh (hc p.x p.y)
  have hAdj : ∀ p q : Pos, Adj t p q ↔ Adj s p q := by
    intro p q
    unfold Adj
    rw [hn p]
  unfold PathOk
  have hChain : List.Chain' (Adj t) l ↔ List.Chain' (Adj s) l :=
    ⟨List.Chain'.imp (fun p q h => (hAdj p q).mp h),
      List.Chain'.imp (fun p q h => (hAdj p q).mpr h)⟩
  have hIn : ∀ p : Pos, inBP t p ↔ inBP s p := by
    intro p
    unfold inBP inB
    rw [hw, hh]
  rw [hChain]
  constructor
  · rintro ⟨h1, h2, h3, h4⟩
    exact ⟨h1, h2, h3, fun p hp => (hIn p).mp (h4 p hp)⟩
  · rintro ⟨h1, h2, h3, h4⟩
    exact ⟨h1, h2, h3, fun p hp => (hIn p).mpr (h4 p hp)⟩

theorem existsUnique_simplePath_congr {s t : MazeState} (hw : t.width = s.width)
    (hh : t.height = s.height)
    (hc : ∀ a b : ℤ, (t.cells a b).walls = (s.cells a b).walls) {a b : Pos}
    (h : ∃! l, SimplePath s l a b) : ∃! l, SimplePath t l a b := by
  obtain ⟨l0, hl0, hu⟩ := h
  refine ⟨l0, ⟨(pathOk_congr hw hh hc).mpr hl0.1, hl0.2⟩, ?_⟩
  intro l' hl'
  exact hu l' ⟨(pathOk_congr hw hh hc).mp hl'.1, hl'.2⟩

theorem carveMid_init {st : MazeState} {x y : ℤ} (ent : CarveEntry st x y) :
    CarveMid (markVisited st x y) (markVisited st x y) := by
  refine ⟨rfl, rfl, fun a b h => h, wallSym_markVisited x y ent.sym, ?_, ?_, ?_, ?_⟩
  · intro a b hin hun
    have hin2 : inB st a b := hin
    have hun2 : ¬ VIS st a b := fun hv => hun ((markVisited_vis st x y a b).mpr (Or.inr hv))
    have hne : ¬ (a = x ∧ b = y) :=
      fun hc2 => hun ((markVisited_vis st x y a b).mpr (Or.inl hc2))
    unfold allClosed
    rw [markVisited_walls]
    exact ent.closedEx a b hin2 hun2 hne
  · intro a b hv
    rcases (markVisited_vis st x y a b).mp hv with ⟨rfl, rfl⟩ | hv2
    · exact ent.hin
    · exact ent.visin a b hv2
  · intro a b ha hb
    refine existsUnique_simplePath_congr (s := st) (t := markVisited st x y) rfl rfl
      (markVisited_walls st x y) (ent.upx a b ?_ ?_)
    · rcases (markVisited_vis st x y a.x a.y).mp ha with ⟨ha1, ha2⟩ | hv2
      · exact Or.inr (by rw [← ha1, ← ha2])
      · exact Or.inl hv2
    · rcases (markVisited_vis st x y b.x b.y).mp hb with ⟨hb1, hb2⟩ | hv2
      · exact Or.inr (by rw [← hb1, ← hb2])
      · exact Or.inl hv2
  · intro a b h1 h2
    exact absurd h1 h2

theorem carveFold_spec (n : ℕ) (x y : ℤ) (st : MazeState) (hinst : inB st x y)
    (ih : ∀ (s2 : MazeState) (g : Rng) (a b : ℤ), CarveEntry s2 a b →
      unvisCount s2 ≤ n → CarvePost s2 (carve n s2 g a b).1 a b) :
    ∀ (ds : List Dir) (acc : MazeState × Rng), CarveMid (markVisited st x y) acc.1 →
      unvisCount acc.1 ≤ n →
      CarveMid (markVisited st x y) (ds.foldl (carveStep n x y) acc).1 ∧
      (∀ a b : ℤ, VIS acc.1 a b → VIS (ds.foldl (carveStep n x y) acc).1 a b) ∧
      (∀ d ∈ ds,
        inB (ds.foldl (carveStep n x y) acc).1 (x + (delta d).1) (y + (delta d).2) →
        VIS (ds.foldl (carveStep n x y) acc).1 (x + (delta d).1) (y + (delta d).2)) := by
  intro ds
  induction ds with
  | nil =>
      intro acc mid hcnt
      exact ⟨mid, fun a b h => h, fun d hd => absurd hd (List.not_mem_nil d)⟩
  | cons d t iht =>
      intro acc mid hcnt
      rw [List.foldl_cons]
      have hsw : (markVisited st x y).width = st.width := rfl
      have hsh : (markVisited st x y).height = st.height := rfl
      by_cases hc : inB acc.1 (x + (delta d).1) (y + (delta d).2) ∧
          (acc.1.cells (x + (delta d).1) (y + (delta d).2)).visited = false
      · have hstep : carveStep n x y acc d =
            carve n (openPair acc.1 x y d) acc.2 (x + (delta d).1) (y + (delta d).2) := by
          unfold carveStep
          rw [if_pos hc]
        rw [hstep]
        have hvisxy : VIS acc.1 x y :=
          mid.mono x y ((markVisited_vis st x y x y).mpr (Or.inl ⟨rfl, rfl⟩))
        have hinxy : inB acc.1 x y := by
          have h1 : inB st x y := hinst
          unfold inB at h1 ⊢
          rw [mid.wEq, mid.hEq, hsw, hsh]
          exact h1
        have hnun : ¬ VIS acc.1 (x + (delta d).1) (y + (delta d).2) := by
          intro hv
          unfold VIS at hv
          rw [hc.2] at hv
          exact Bool.noConfusion hv
        have hnall : allClosed acc.1 (x + (delta d).1) (y + (delta d).2) :=
          mid.closed _ _ hc.1 hnun
        have entry : CarveEntry (openPair acc.1 x y d)
            (x + (delta d).1) (y + (delta d).2) := by
          refine ⟨wallSym_openPair x y d mid.sym, hc.1, ?_, ?_, ?_, ?_⟩
          · exact fun hv => hnun ((openPair_vis acc.1 x y d _ _).mp hv)
          · intro a b hib hvb hne
            have hib2 : inB acc.1 a b := hib
            have hvb2 : ¬ VIS acc.1 a b :=
              fun hv => hvb ((openPair_vis acc.1 x y d a b).mpr hv)
            have h1 : ¬ (a = x ∧ b = y) := by
              intro hcxy
              exact hvb2 (by rw [hcxy.1, hcxy.2]; exact hvisxy)
            unfold allClosed
            rw [openPair_cells_other h1 hne]
            exact mid.closed a b hib2 hvb2
          · intro a b hv
            exact ((openPair_vis acc.1 x y d a b).mp hv |> mid.visin a b : inB acc.1 a b)
          · intro a b ha hb
            exact up_extend mid.sym hinxy hvisxy hc.1 hnun hnall mid.up a b
              (ha.imp (fun h => (openPair_vis acc.1 x y d a.x a.y).mp h) id)
              (hb.imp (fun h => (openPair_vis acc.1 x y d b.x b.y).mp h) id)
        have hcnt2 : unvisCount (openPair acc.1 x y d) ≤ n := by
          rw [unvisCount_openPair]
          exact hcnt
        have post := ih (openPair acc.1 x y d) acc.2 _ _ entry hcnt2
        have mid2 : CarveMid (markVisited st x y)
            (carve n (openPair acc.1 x y d) acc.2
              (x + (delta d).1) (y + (delta d).2)).1 := by
          refine ⟨?_, ?_, ?_, post.sym, post.closed, post.visin, post.up, ?_⟩
          · have h1 : (openPair acc.1 x y d).width = acc.1.width := rfl
            rw [post.wEq, h1, mid.wEq]
          · have h1 : (openPair acc.1 x y d).height = acc.1.height := rfl
            rw [post.hEq, h1, mid.hEq]
          · intro a b hv
            exact post.mono a b ((openPair_vis acc.1 x y d a b).mpr (mid.mono a b hv))
          · intro a b hv hnstem dd hbnd
            by_cases hold : VIS acc.1 a b
            · have hbacc : inB acc.1 (a + (delta dd).1) (b + (delta dd).2) := by
                unfold inB at hbnd ⊢
                rw [post.wEq, post.hEq] at hbnd
                exact hbnd
              exact post.mono _ _ ((openPair_vis acc.1 x y d _ _).mpr
                (mid.nbVis a b hold hnstem dd hbacc))
            · have hnop : ¬ VIS (openPair acc.1 x y d) a b :=
                fun h => hold ((openPair_vis acc.1 x y d a b).mp h)
              exact post.nbVis a b (Or.inl ⟨hv, hnop⟩) dd hbnd
        have hcnt3 : unvisCount (carve n (openPair acc.1 x y d) acc.2
            (x + (delta d).1) (y + (delta d).2)).1 ≤ n :=
          le_trans (unvisCount_mono post.wEq post.hEq post.mono) hcnt2
        obtain ⟨midF, hmonoF, hdirsF⟩ := iht
          (carve n (openPair acc.1 x y d) acc.2 (x + (delta d).1) (y + (delta d).2))
          mid2 hcnt3
        refine ⟨midF, ?_, ?_⟩
        · intro a b hv
          exact hmonoF a b (post.mono a b ((openPair_vis acc.1 x y d a b).mpr hv))
        · intro d2 hd2 hbnd
          rcases List.mem_cons.mp hd2 with rfl | hd2t
          · exact hmonoF _ _ post.target
          · exact hdirsF d2 hd2t hbnd
      · have hstep : carveStep n x y acc d = acc := by
          unfold carveStep
          rw [if_neg hc]
        rw [hstep]
        obtain ⟨midF, hmonoF, hdirsF⟩ := iht acc mid hcnt
        refine ⟨midF, hmonoF, ?_⟩
        intro d2 hd2 hbnd
        rcases List.mem_cons.mp hd2 with rfl | hd2t
        · have hb2 : inB acc.1 (x + (delta d2).1) (y + (delta d2).2) := by
            unfold inB at hbnd ⊢
            rw [midF.wEq, midF.hEq] at hbnd
            rw [mid.wEq, mid.hEq]
            exact hbnd
          have hvacc : VIS acc.1 (x + (delta d2).1) (y + (delta d2).2) := by
            by_contra hcon
            refine hc ⟨hb2, ?_⟩
            cases h2 : (acc.1.cells (x + (delta d2).1) (y + (delta d2).2)).visited
            · rfl
            · exact absurd h2 hcon
          exact hmonoF _ _ hvacc
        · exact hdirsF d2 hd2t hbnd

theorem carve_spec : ∀ (fuel : ℕ) (st : MazeState) (g : Rng) (x y : ℤ),
    CarveEntry st x y → unvisCount st ≤ fuel →
    CarvePost st (carve fuel st g x y).1 x y := by
  intro fuel
  induction fuel with
  | zero =>
      intro st g x y ent hf
      have := unvisCount_pos ent.hin ent.hun
      omega
  | succ n ih =>
      intro st g x y ent hf
      show CarvePost st (((shuffleArray carveOrder g).1.foldl (carveStep n x y)
        (markVisited st x y, (shuffleArray carveOrder g).2))).1 x y
      have hcnt0 : unvisCount (markVisited st x y) ≤ n := by
        have := unvisCount_markVisited ent.hin ent.hun
        omega
      obtain ⟨midF, hmonoF, hdirsF⟩ := carveFold_spec n x y st ent.hin ih
        (shuffleArray carveOrder g).1 (markVisited st x y, (shuffleArray carveOrder g).2)
        (carveMid_init ent) hcnt0
      have hsw : (markVisited st x y).width = st.width := rfl
      have hsh : (markVisited st x y).height = st.height := rfl
      have hmemd : ∀ dd : Dir, dd ∈ (shuffleArray carveOrder g).1 := by
        intro dd
        have hp := shuffleArray_perm carveOrder g
        rw [hp.mem_iff]
        cases dd <;> simp [carveOrder]
      refine ⟨?_, ?_, ?_, ?_, midF.sym, midF.closed, midF.visin, midF.up, ?_⟩
      · rw [midF.wEq, hsw]
      · rw [midF.hEq, hsh]
      · intro a b hv
        exact hmonoF a b ((markVisited_vis st x y a b).mpr (Or.inr hv))
      · exact hmonoF x y ((markVisited_vis st x y x y).mpr (Or.inl ⟨rfl, rfl⟩))
      · intro a b hab dd hbnd
        rcases hab with ⟨hvf, hnst⟩ | ⟨rfl, rfl⟩
        · by_cases hstem : VIS (markVisited st x y) a b
          · rcases (markVisited_vis st x y a b).mp hstem with ⟨rfl, rfl⟩ | hvis
            · exact hdirsF dd (hmemd dd) hbnd
            · exact absurd hvis hnst
          · exact midF.nbVis a b hvf hstem dd hbnd
        · exact hdirsF dd (hmemd dd) hbnd

/-! #### Completeness: starting at the origin, every cell is carved -/

theorem carve_all_visited {w h : ℕ} {st2 : MazeState}
    (post : CarvePost (initializeCells w h) st2 0 0) :
    ∀ a b : ℤ, inB st2 a b → VIS st2 a b := by
  have key : ∀ n : ℕ, ∀ a b : ℤ, (a + b).toNat = n → inB st2 a b → VIS st2 a b := by
    intro n
    induction n using Nat.strong_induction_on with
    | _ n ihn =>
        intro a b habn hin
        have hin2 : 0 ≤ a ∧ a < (st2.width : ℤ) ∧ 0 ≤ b ∧ b < (st2.height : ℤ) := hin
        obtain ⟨h1, h2, h3, h4⟩ := hin2
        by_cases ha0 : a = 0
        · by_cases hb0 : b = 0
          · subst ha0
            subst hb0
            exact post.target
          · have hprev : VIS st2 a (b - 1) := by
              refine ihn ((a + (b - 1)).toNat) (by omega) a (b - 1) rfl ?_
              show 0 ≤ a ∧ a < (st2.width : ℤ) ∧ 0 ≤ b - 1 ∧ b - 1 < (st2.height : ℤ)
              omega
            have hnz : ¬ VIS (initializeCells w h) a (b - 1) :=
              fun hv => Bool.noConfusion hv
            have hbnd : inB st2 (a + (delta Dir.bottom).1) (b - 1 + (delta Dir.bottom).2) := by
              show 0 ≤ a + (delta Dir.bottom).1 ∧
                a + (delta Dir.bottom).1 < (st2.width : ℤ) ∧
                0 ≤ b - 1 + (delta Dir.bottom).2 ∧
                b - 1 + (delta Dir.bottom).2 < (st2.height : ℤ)
              dsimp only [delta]
              omega
            have hnb := post.nbVis a (b - 1) (Or.inl ⟨hprev, hnz⟩) Dir.bottom hbnd
            dsimp only [delta] at hnb
            rw [show a + (0 : ℤ) = a from by omega,
              show b - 1 + 1 = b from by omega] at hnb
            exact hnb
        · have hprev : VIS st2 (a - 1) b := by
            refine ihn ((a - 1 + b).toNat) (by omega) (a - 1) b rfl ?_
            show 0 ≤ a - 1 ∧ a - 1 < (st2.width : ℤ) ∧ 0 ≤ b ∧ b < (st2.height : ℤ)
            omega
          have hnz : ¬ VIS (initializeCells w h) (a - 1) b :=
            fun hv => Bool.noConfusion hv
          have hbnd : inB st2 (a - 1 + (delta Dir.right).1) (b + (delta Dir.right).2) := by
            show 0 ≤ a - 1 + (delta Dir.right).1 ∧
              a - 1 + (delta Dir.right).1 < (st2.width : ℤ) ∧
              0 ≤ b + (delta Dir.right).2 ∧ b + (delta Dir.right).2 < (st2.height : ℤ)
            dsimp only [delta]
            omega
          have hnb := post.nbVis (a - 1) b (Or.inl ⟨hprev, hnz⟩) Dir.right hbnd
          dsimp only [delta] at hnb
          rw [show a - 1 + 1 = a from by omega, show b + (0 : ℤ) = b from by omega] at hnb
          exact hnb
  intro a b hin
  exact key ((a + b).toNat) a b rfl hin

theorem carveEntry_init (w h : ℕ) (hw : 1 ≤ w) (hh : 1 ≤ h) :
    CarveEntry (initializeCells w h) 0 0 := by
  refine ⟨wallSym_init w h, ?_, fun hv => Bool.noConfusion hv, fun a b _ _ _ => rfl,
    fun a b hv => absurd hv (fun h2 => Bool.noConfusion h2), ?_⟩
  · show 0 ≤ (0 : ℤ) ∧ (0 : ℤ) < (w : ℤ) ∧ 0 ≤ (0 : ℤ) ∧ (0 : ℤ) < (h : ℤ)
    omega
  · intro a b ha hb
    rcases ha with ha | rfl
    · exact absurd ha (fun h2 => Bool.noConfusion h2)
    · rcases hb with hb | rfl
      · exact absurd hb (fun h2 => Bool.noConfusion h2)
      · refine ⟨[⟨0, 0⟩], ⟨pathOk_single ?_, List.nodup_singleton _⟩,
          fun l' hl' => eq_single_of_nodup hl'.1.1 hl'.1.2.1 hl'.2⟩
        show 0 ≤ (0 : ℤ) ∧ (0 : ℤ) < (w : ℤ) ∧ 0 ≤ (0 : ℤ) ∧ (0 : ℤ) < (h : ℤ)
        omega

theorem generateMazeRecursive_post (w h : ℕ) (hw : 1 ≤ w) (hh : 1 ≤ h) (g : Rng) :
    CarvePost (initializeCells w h)
      (generateMazeRecursive (initializeCells w h) g 0 0).1 0 0 := by
  have hcnt : unvisCount (initializeCells w h) ≤
      (initializeCells w h).width * (initializeCells w h).height + 1 := by
    have h1 := unvisCount_le (initializeCells w h)
    omega
  exact carve_spec _ (initializeCells w h) g 0 0 (carveEntry_init w h hw hh) hcnt

/-- C4: starting from the fully-walled, fully-unvisited grid and running
`generateMazeRecursive(0, 0)`, the open-wall graph on the
`width × height` cells is a spanning tree: every in-grid cell is marked
visited and reachable from `(0, 0)`, and between any two in-grid cells
there is exactly one simple (no-repeat) open-wall path. -/
theorem generate_recursive_spanning_tree (w h : ℕ) (g : Rng) (hw : 1 ≤ w) (hh : 1 ≤ h) :
    (∀ a b : ℤ, inB (generateMazeRecursive (initializeCells w h) g 0 0).1 a b →
      VIS (generateMazeRecursive (initializeCells w h) g 0 0).1 a b) ∧
    (∀ p : Pos, inBP (generateMazeRecursive (initializeCells w h) g 0 0).1 p →
      Reachable (generateMazeRecursive (initializeCells w h) g 0 0).1 ⟨0, 0⟩ p) ∧
    (∀ a b : Pos, inBP (generateMazeRecursive (initializeCells w h) g 0 0).1 a →
      inBP (generateMazeRecursive (initializeCells w h) g 0 0).1 b →
      ∃! l, SimplePath (generateMazeRecursive (initializeCells w h) g 0 0).1 l a b) := by
  have post := generateMazeRecursive_post w h hw hh g
  have hall := carve_all_visited post
  refine ⟨hall, ?_, ?_⟩
  · intro p hp
    obtain ⟨l, hl, -⟩ := post.up ⟨0, 0⟩ p post.target (hall p.x p.y hp)
    exact ⟨l, hl.1⟩
  · intro a b hpa hpb
    exact post.up a b (hall a.x a.y hpa) (hall b.x b.y hpb)

set_option maxRecDepth 40000 in
theorem generate_recursive_spanning_tree_witness :
    (1 : ℕ) ≤ 2 ∧
    (∃! l, SimplePath (generateMazeRecursive (initializeCells 2 2) [] 0 0).1
      l ⟨0, 0⟩ ⟨1, 1⟩) :=
  ⟨by decide,
    (generate_recursive_spanning_tree 2 2 [] (by decide) (by decide)).2.2 ⟨0, 0⟩ ⟨1, 1⟩
      (by decide) (by decide)⟩

/-! #### The solvability verification of the part_003 variant -/

theorem mem_cornerPairs : ∀ {l : List Pos} {pr : Pos × Pos}, pr ∈ cornerPairs l →
    pr.1 ∈ l ∧ pr.2 ∈ l := by
  intro l
  induction l with
  | nil => intro pr hpr; simp [cornerPairs] at hpr
  | cons p rest ih =>
      intro pr hpr
      simp only [cornerPairs] at hpr
      rcases List.mem_append.mp hpr with hm | hm
      · obtain ⟨q, hq, rfl⟩ := List.mem_map.mp hm
        exact ⟨List.mem_cons_self p rest, List.mem_cons_of_mem p hq⟩
      · obtain ⟨hm1, hm2⟩ := ih hm
        exact ⟨List.mem_cons_of_mem p hm1, List.mem_cons_of_mem p hm2⟩

theorem cornersOf_inBP {st : MazeState} (hw : 1 ≤ st.width) (hh : 1 ≤ st.height) :
    ∀ p ∈ cornersOf st, inBP st p := by
  intro p hp
  simp only [cornersOf, List.mem_cons, List.not_mem_nil, or_false] at hp
  rcases hp with rfl | rfl | rfl | rfl <;>
    (unfold inBP inB; (try dsimp only); omega)

theorem ensureSolvableGo_of_connected {st : MazeState} (g : Rng)
    (hconn : ∀ p q : Pos, inBP st p → inBP st q → Reachable st p q) :
    ∀ prs : List (Pos × Pos), (∀ pr ∈ prs, inBP st pr.1 ∧ inBP st pr.2) →
      ensureSolvableGo st g prs = some (st, g) := by
  intro prs
  induction prs with
  | nil => intro _; rfl
  | cons pr rest ih =>
      intro hpr
      have h1 := (hpr pr (List.mem_cons_self pr rest)).1
      have h2 := (hpr pr (List.mem_cons_self pr rest)).2
      obtain ⟨res, hres⟩ := findPath_isSome st pr.1 pr.2 h1
      cases res with
      | nil =>
          exact absurd (hconn pr.1 pr.2 h1 h2) (findPath_empty_not_reachable h1 hres)
      | cons c cs =>
          simp only [ensureSolvableGo]
          rw [hres]
          show ensureSolvableGo st g rest = some (st, g)
          exact ih (fun q hq => hpr q (List.mem_cons_of_mem pr hq))

theorem ensureSolvable_of_connected {st : MazeState} {w h : ℕ} (hw : 1 ≤ w) (hh : 1 ≤ h)
    (hw3 : st.width = w) (hh3 : st.height = h) (g : Rng)
    (hconn : ∀ p q : Pos, inBP st p → inBP st q → Reachable st p q) :
    ensureSolvable st g = some (st, g) := by
  unfold ensureSolvable
  apply ensureSolvableGo_of_connected g hconn
  intro pr hpr
  obtain ⟨h1, h2⟩ := mem_cornerPairs hpr
  exact ⟨cornersOf_inBP (by omega) (by omega) pr.1 h1,
    cornersOf_inBP (by omega) (by omega) pr.2 h2⟩

/-- C1 (amended, the part_003 variant that actually contains
`ensureSolvable`): for every width ≥ 1, height ≥ 1, difficulty and
random stream, `generate` returns a maze of the requested dimensions in
which every pair of the four corner cells is connected by an open-wall
path, and the corner-pair verification loop runs on every call (it is
the last, unconditional pipeline stage). -/
theorem generateB_solvable (w h difficulty : ℕ) (g : Rng) (hw : 1 ≤ w) (hh : 1 ≤ h) :
    ∃ r, generateB w h difficulty g = some r ∧ r.1.width = w ∧ r.1.height = h ∧
      ∀ p ∈ cornersOf r.1, ∀ q ∈ cornersOf r.1, Reachable r.1 p q := by
  have post := generateMazeRecursive_post w h hw hh g
  have hall := carve_all_visited post
  have hconn1 : ∀ p q : Pos,
      inBP (generateMazeRecursive (initializeCells w h) g 0 0).1 p →
      inBP (generateMazeRecursive (initializeCells w h) g 0 0).1 q →
      Reachable (generateMazeRecursive (initializeCells w h) g 0 0).1 p q := by
    intro p q hp hq
    obtain ⟨l, hl, -⟩ := post.up p q (hall p.x p.y hp) (hall q.x q.y hq)
    exact ⟨l, hl.1⟩
  have key : ∀ st1 : MazeState, st1.width = w → st1.height = h →
      (∀ p q : Pos, inBP st1 p → inBP st1 q → Reachable st1 p q) →
      ∀ (g2 : Rng) (n1 n2 : ℕ),
        ∃ r, ensureSolvable
            (addDeadEndsB (addLoops st1 g2 n1).1 (addLoops st1 g2 n1).2 n2).1
            (addDeadEndsB (addLoops st1 g2 n1).1 (addLoops st1 g2 n1).2 n2).2 = some r ∧
          r.1.width = w ∧ r.1.height = h ∧
          ∀ p ∈ cornersOf r.1, ∀ q ∈ cornersOf r.1, Reachable r.1 p q := by
    intro st1 hw1 hh1 hconn g2 n1 n2
    have hs2 := stepLe_addLoops n1 st1 g2
    have hs3 := stepLe_addDeadEndsB n2 (addLoops st1 g2 n1).1 (addLoops st1 g2 n1).2
    have hstep := stepLe_trans hs2 hs3
    have hw3 : (addDeadEndsB (addLoops st1 g2 n1).1 (addLoops st1 g2 n1).2 n2).1.width = w := by
      rw [hstep.1, hw1]
    have hh3 : (addDeadEndsB (addLoops st1 g2 n1).1
        (addLoops st1 g2 n1).2 n2).1.height = h := by
      rw [hstep.2.1, hh1]
    have hconn3 : ∀ p q : Pos,
        inBP (addDeadEndsB (addLoops st1 g2 n1).1 (addLoops st1 g2 n1).2 n2).1 p →
        inBP (addDeadEndsB (addLoops st1 g2 n1).1 (addLoops st1 g2 n1).2 n2).1 q →
        Reachable (addDeadEndsB (addLoops st1 g2 n1).1 (addLoops st1 g2 n1).2 n2).1 p q := by
      intro p q hp hq
      have hp1 : inBP st1 p := by
        unfold inBP inB at hp ⊢
        rw [hstep.1, hstep.2.1] at hp
        exact hp
      have hq1 : inBP st1 q := by
        unfold inBP inB at hq ⊢
        rw [hstep.1, hstep.2.1] at hq
        exact hq
      exact reachable_mono hstep (hconn p q hp1 hq1)
    refine ⟨((addDeadEndsB (addLoops st1 g2 n1).1 (addLoops st1 g2 n1).2 n2).1,
        (addDeadEndsB (addLoops st1 g2 n1).1 (addLoops st1 g2 n1).2 n2).2),
      ensureSolvable_of_connected hw hh hw3 hh3 _ hconn3, hw3, hh3, ?_⟩
    intro p hp q hq
    exact hconn3 p q (cornersOf_inBP (by omega) (by omega) p hp)
      (cornersOf_inBP (by omega) (by omega) q hq)
  exact key (generateMazeRecursive (initializeCells w h) g 0 0).1 (by rw [post.wEq]; rfl)
    (by rw [post.hEq]; rfl) hconn1 (generateMazeRecursive (initializeCells w h) g 0 0).2
    (min (10 + difficulty * 2) 30) (min (5 + difficulty) 15)

set_option maxRecDepth 40000 in
theorem generateB_solvable_witness :
    (1 : ℕ) ≤ 2 ∧
    (∃ r, generateB 2 2 0 [] = some r ∧ r.1.width = 2 ∧ r.1.height = 2 ∧
      ∀ p ∈ cornersOf r.1, ∀ q ∈ cornersOf r.1, Reachable r.1 p q) :=
  ⟨by decide, generateB_solvable 2 2 0 [] (by decide) (by decide)⟩

set_option maxRecDepth 100000 in
/-- C1 is refuted for the maze.ts variant of `generate`, which runs no
solvability verification: with `width = height = 3` and difficulty 4
there is a random stream on which `addExtraWalls` disconnects the
corner `(0, 2)` from the corner `(0, 0)` of the returned maze. -/
theorem generateA_unsolvable :
    generateA 3 3 4 rngCE = some stCE ∧
    (⟨0, 0⟩ : Pos) ∈ cornersOf stCE.1 ∧ (⟨0, 2⟩ : Pos) ∈ cornersOf stCE.1 ∧
    ¬ Reachable stCE.1 ⟨0, 0⟩ ⟨0, 2⟩ :=
  ⟨by rfl, by decide, by decide,
    findPath_empty_not_reachable (by decide) (by rfl)⟩

end MazeGame
